import Mathlib

/-!
Verification of the StormPhase2 anomaly-detection core against its
natural-language specification.

The Lean definitions below are shallow embeddings of the Python source:

* `src/src/preprocess.py`  — `get_event_lengths`, `get_label_filters_for_all_cutoffs`,
  `find_subsequent_duplicates`, the missing-mask / linear-fit / sign-flip steps of
  `preprocess_data`, and `match_bottomup_load`;
* `src/src/methods.py`    — `SingleThresholdMethod` and `DoubleThresholdMethod`
  (threshold optimization and prediction) and `StackEnsemble._combine_predictions`.

Pandas/NumPy values are modelled as `List ℚ` (or `List (Option ℚ)` where nulls
matter); IEEE infinities, which the code produces via `np.inf`, are modelled by
the three-valued type `EVal` below (no NaN is ever needed: the spec guarantees
scores are never NaN).  NumPy primitives used by the code (`np.linspace`,
`np.interp`, `np.argmax`, `np.percentile`, `np.sign`, `np.logical_or.reduce`)
are embedded from their documented semantics over exact rationals.
-/

namespace StormPhase2

/-- Extended value: a rational, `-inf`, or `+inf`.  Models the IEEE float
comparisons the code performs against `np.inf` / `-np.inf`. -/
inductive EVal where
  | negInf : EVal
  | fin : ℚ → EVal
  | posInf : EVal
deriving DecidableEq, Repr

/-- `a < b` for extended values, as IEEE `<` (no NaN). -/
def EVal.ltb : EVal → EVal → Bool
  | .negInf, .negInf => false
  | .negInf, _ => true
  | .fin _, .negInf => false
  | .fin a, .fin b => a < b
  | .fin _, .posInf => true
  | .posInf, _ => false

/-- `a ≤ b` for extended values, as IEEE `<=` (no NaN). -/
def EVal.leb : EVal → EVal → Bool
  | .negInf, _ => true
  | .fin _, .negInf => false
  | .fin a, .fin b => a ≤ b
  | .fin _, .posInf => true
  | .posInf, .posInf => true
  | .posInf, _ => false

/-- `a ≥ b`, as the code writes `x >= tau`. -/
def EVal.geb (a b : EVal) : Bool := EVal.leb b a

lemma EVal.leb_fin_fin {a b : ℚ} : (EVal.fin a).leb (EVal.fin b) = decide (a ≤ b) := rfl

lemma EVal.ltb_fin_fin {a b : ℚ} : (EVal.fin a).ltb (EVal.fin b) = decide (a < b) := rfl

/-- `getD` through a `map`, in-bounds case. -/
lemma getD_map_of_lt {α β : Type} (f : α → β) (l : List α) {j : ℕ} (hj : j < l.length)
    (d : β) (d' : α) : (l.map f).getD j d = f (l.getD j d') := by
  rw [List.getD_eq_getElem?_getD, List.getElem?_map, List.getElem?_eq_getElem hj,
    List.getD_eq_getElem?_getD, List.getElem?_eq_getElem hj]
  rfl

/-- `getD` through a `map` of a frame-transformer that preserves `[]`. -/
lemma getD_map_frames {α β : Type} (F : List α → List β) (hF : F [] = [])
    (ys : List (List α)) (i : ℕ) : (ys.map F).getD i [] = F (ys.getD i []) := by
  by_cases hi : i < ys.length
  · exact getD_map_of_lt F ys hi [] []
  · rw [List.getD_eq_default _ _ (by simpa using Nat.le_of_not_lt hi),
      List.getD_eq_default _ _ (Nat.le_of_not_lt hi), hF]

namespace SingleThresholdMethod

/-- Embeds `SingleThresholdMethod.predict_from_scores_dfs` (src/src/methods.py
lines 257-264): per score frame, `pred = zeros(n); pred[np.abs(score) >= self.optimal_threshold] = 1`. -/
def predict_from_scores_dfs (optimal_threshold : EVal) (y_scores_dfs : List (List ℚ)) :
    List (List ℚ) :=
  y_scores_dfs.map (fun score =>
    score.map (fun s => if (EVal.fin |s|).geb optimal_threshold then (1 : ℚ) else 0))

end SingleThresholdMethod

namespace DoubleThresholdMethod

/-- Embeds `DoubleThresholdMethod.predict_from_scores_dfs` (src/src/methods.py
lines 188-196): `pred[np.logical_or(score < self.optimal_negative_threshold,
score >= self.optimal_positive_threshold)] = 1`. -/
def predict_from_scores_dfs (optimal_negative_threshold optimal_positive_threshold : EVal)
    (y_scores_dfs : List (List ℚ)) : List (List ℚ) :=
  y_scores_dfs.map (fun score =>
    score.map (fun s =>
      if (EVal.fin s).ltb optimal_negative_threshold
          || (EVal.fin s).geb optimal_positive_threshold then (1 : ℚ) else 0))

end DoubleThresholdMethod

/-- Python `AttributeError`: raised when a method reads an instance attribute
that no prior call has set. -/
inductive AttrError where
  | attributeError
deriving DecidableEq, Repr

/-! ### NumPy / sklearn primitives used by the threshold optimizer,
embedded from their documented semantics over exact rationals. -/

/-- `np.linspace start stop num` (endpoint included; `num = 1` gives `[start]`). -/
def linspace (start stop : ℚ) (num : ℕ) : List ℚ :=
  (List.range num).map (fun (i : ℕ) =>
    if num ≤ 1 then start else start + (i : ℚ) * (stop - start) / ((num : ℚ) - 1))

/-- Minimum of a list (`np.min`); the callers below only apply it to non-empty
lists when the real code runs, so the empty case is totalized to `0`. -/
def listMin : List ℚ → ℚ
  | [] => 0
  | a :: r => r.foldl min a

/-- Maximum of a list (`np.max`); empty case totalized to `0`. -/
def listMax : List ℚ → ℚ
  | [] => 0
  | a :: r => r.foldl max a

/-- Auxiliary state walk for `argmax`: current index, best index, best value. -/
def argmaxAux : List ℚ → ℕ → ℕ → ℚ → ℕ
  | [], _, bi, _ => bi
  | x :: rest, i, bi, bv =>
    if bv < x then argmaxAux rest (i + 1) i x else argmaxAux rest (i + 1) bi bv

/-- `np.argmax`: index of the first maximal element (`0` for the empty list,
which NumPy rejects; the callers below never pass one when the real code runs). -/
def argmax : List ℚ → ℕ
  | [] => 0
  | x :: rest => argmaxAux rest 1 0 x

/-- `np.interp` over a list of ascending sample points paired with values;
clamps outside the sampled range.  Empty sample list totalized to `0`. -/
def interp1 : ℚ → List (ℚ × ℚ) → ℚ
  | _, [] => 0
  | _, [(_, y0)] => y0
  | x, (x0, y0) :: (x1, y1) :: rest =>
    if x ≤ x0 then y0
    else if x ≤ x1 then y0 + (x - x0) * (y1 - y0) / (x1 - x0)
    else interp1 x ((x1, y1) :: rest)

/-- Insertion step for sorting `(label, score)` pairs by descending score. -/
def insertByScoreDesc (p : ℚ × ℚ) : List (ℚ × ℚ) → List (ℚ × ℚ)
  | [] => [p]
  | q :: rest => if p.2 < q.2 then q :: insertByScoreDesc p rest else p :: q :: rest

/-- Sort `(label, score)` pairs by descending score, as sklearn's
`_binary_clf_curve` does with `argsort(kind="mergesort")[::-1]` (tie order is
irrelevant to the curve: only cumulative sums at group boundaries are kept). -/
def sortByScoreDesc : List (ℚ × ℚ) → List (ℚ × ℚ)
  | [] => []
  | p :: rest => insertByScoreDesc p (sortByScoreDesc rest)

/-- Core of sklearn's `_binary_clf_curve` on pairs already sorted by descending
score: one `(threshold, tps, fps)` triple per distinct score value, thresholds
descending; `tps = cumsum(y_true)[threshold_idxs]`, `fps = 1 + threshold_idxs - tps`.
`pos` and `total` accumulate the running cumulative label sum and sample count. -/
def clfCurveAux : List (ℚ × ℚ) → ℚ → ℚ → List (ℚ × ℚ × ℚ)
  | [], _, _ => []
  | (y, s) :: rest, pos, total =>
    let pos' := pos + y
    let total' := total + 1
    match rest with
    | [] => [(s, pos', total' - pos')]
    | (_, s2) :: _ =>
      if s2 = s then clfCurveAux rest pos' total'
      else (s, pos', total' - pos') :: clfCurveAux rest pos' total'

/-- sklearn `_binary_clf_curve` on `(label, score)` pairs. -/
def binary_clf_curve (pairs : List (ℚ × ℚ)) : List (ℚ × ℚ × ℚ) :=
  clfCurveAux (sortByScoreDesc pairs) 0 0

/-- sklearn `precision_recall_curve` on `(label, score)` pairs: returns
`(precision, recall, thresholds)` with thresholds ascending, the final
`(precision, recall) = (1, 0)` point appended, and the curve truncated at the
first index reaching full recall (`sl = slice(tps.searchsorted(tps[-1]), None, -1)`). -/
def precision_recall_curve (pairs : List (ℚ × ℚ)) : List ℚ × List ℚ × List ℚ :=
  let curve := binary_clf_curve pairs
  let tps := curve.map (fun t => t.2.1)
  let tpsLast := tps.getLastD 0
  let precisionList := curve.map (fun t =>
    if t.2.1 + t.2.2 = 0 then 0 else t.2.1 / (t.2.1 + t.2.2))
  let recallList := if tpsLast = 0 then curve.map (fun _ => (1 : ℚ))
    else tps.map (· / tpsLast)
  let keep := tps.findIdx (fun v => tpsLast ≤ v) + 1
  ((precisionList.take keep).reverse ++ [1],
   (recallList.take keep).reverse ++ [0],
   ((curve.map (fun t => t.1)).take keep).reverse)

/-- Modelled from the spec: `filter_label_and_scores_to_array` is imported from
`src/src/helper_functions.py`, but that file in this snapshot does not contain
it.  Spec section 4.4.1: "gather the concatenated (score, label) pairs across
all stations, excluding samples where `length_filters[k][i] == true`".
`filters` maps station → cutoff index → boolean mask; `c` selects the cutoff. -/
def filter_label_and_scores_to_array (y_dfs y_scores_dfs : List (List ℚ))
    (filters : List (List (List Bool))) (c : ℕ) : List (ℚ × ℚ) :=
  ((y_dfs.zip (y_scores_dfs.zip filters)).map (fun st =>
    ((st.1.zip (st.2.1.zip (st.2.2.getD c []))).filter (fun p => !p.2.2)).map
      (fun p => (p.1, p.2.1)))).flatten

/-- Modelled from the spec: `f_beta` lives in `src/src/evaluation.py`, which is
missing from this snapshot.  Glossary: F-beta = `(1+β²)·P·R / (β²·P + R)`
(rational division, so a `0/0` confusion-free point yields `0`). -/
def f_beta (p r beta : ℚ) : ℚ :=
  (1 + beta ^ 2) * p * r / (beta ^ 2 * p + r)

/-- Modelled from the spec: `f_beta_from_confmat` lives in `src/src/evaluation.py`,
which is missing from this snapshot.  Spec section 4.4.2: an F-beta grid is
computed from `(fp, tp, fn)`; precision = `tp/(tp+fp)`, recall = `tp/(tp+fn)`. -/
def f_beta_from_confmat (fp tp fn beta : ℚ) : ℚ :=
  f_beta (tp / (tp + fp)) (tp / (tp + fn)) beta

namespace SingleThresholdMethod

/-- The threshold attributes of a `SingleThresholdMethod` instance.  `__init__`
(src/src/methods.py lines 207-222) sets none of them, so on a fresh instance
`optimal_threshold` is unset (`none`). -/
structure State where
  optimal_threshold : Option EVal
deriving DecidableEq, Repr

/-- A freshly constructed instance. -/
def freshState : State := ⟨none⟩

/-- Result of `_calculate_interpolated_recall_precision` (src/src/methods.py
lines 270-319): one recall and one precision column per cutoff, on the common
descending interpolation grid `thresholds`. -/
structure InterpRP where
  recalls : List (List ℚ)
  precisions : List (List ℚ)
  thresholds : List ℚ
deriving Repr

/-- Embeds `SingleThresholdMethod._calculate_interpolated_recall_precision`
with `which_threshold="symmetrical"` (the only mode `optimize_thresholds` uses):
per cutoff, take `precision_recall_curve` of the filtered `(label, |score|)`
pairs; fold the running `min`/`max` threshold from `0`; interpolate
`recall[:-1]` and `precision[:-1]` over `linspace(max, min, interpLen)`. -/
def calcInterpolatedRecallPrecision (y_dfs y_scores_dfs : List (List ℚ))
    (filters : List (List (List Bool))) (nCutoffs interpLen : ℕ) : InterpRP :=
  let curves := (List.range nCutoffs).map (fun c =>
    precision_recall_curve ((filter_label_and_scores_to_array y_dfs y_scores_dfs filters c).map
      (fun p => (p.1, |p.2|))))
  let minT := curves.foldl (fun m cur => min m (listMin cur.2.2)) 0
  let maxT := curves.foldl (fun m cur => max m (listMax cur.2.2)) 0
  let grid := linspace maxT minT interpLen
  { recalls := curves.map (fun cur => grid.map (fun t => interp1 t (cur.2.2.zip cur.2.1.dropLast))),
    precisions := curves.map (fun cur => grid.map (fun t => interp1 t (cur.2.2.zip cur.1.dropLast))),
    thresholds := grid }

/-- Embeds `SingleThresholdMethod.calculate_and_set_thresholds` together with
`_calculate_interpolated_scores` and `_find_max_score_index_for_cutoffs`
(src/src/methods.py lines 249-255, 321-338): per used cutoff an F-beta column,
the mean across used-cutoff columns per grid point, `np.argmax`, and the grid
value at that index. -/
def calculate_and_set_thresholds (rp : InterpRP) (used : List ℕ) (beta : ℚ) : ℚ :=
  let scoreCols := used.map (fun c =>
    ((rp.precisions.getD c []).zip (rp.recalls.getD c [])).map (fun p => f_beta p.1 p.2 beta))
  let meanScores := (List.range rp.thresholds.length).map (fun i =>
    (scoreCols.map (fun col => col.getD i 0)).sum / (scoreCols.length : ℚ))
  rp.thresholds.getD (argmax meanScores) 0

/-- Embeds `SingleThresholdMethod.optimize_thresholds` (src/src/methods.py
lines 230-247) on a fresh instance (`scores_calculated` is false, so scores are
always recomputed; the `ValueError` guard on `used_cutoffs` is outside every
claim and skipped).  `used` holds positions into the cutoff-key list of the
first station's filter dictionary. -/
def optimize_thresholds (st : State) (y_dfs y_scores_dfs : List (List ℚ))
    (filters : List (List (List Bool))) (used : List ℕ) (beta : ℚ) (interpLen : ℕ) : State :=
  if filters = [] then { st with optimal_threshold := some .posInf }
  else
    let nCutoffs := (filters.headD []).length
    let rp := calcInterpolatedRecallPrecision y_dfs y_scores_dfs filters nCutoffs interpLen
    { st with optimal_threshold := some (.fin (calculate_and_set_thresholds rp used beta)) }

/-- Stateful entry to `predict_from_scores_dfs`: reading `self.optimal_threshold`
when no call has set it raises `AttributeError`. -/
def predict_from_scores_dfs_st (st : State) (y_scores_dfs : List (List ℚ)) :
    Except AttrError (List (List ℚ)) :=
  match st.optimal_threshold with
  | none => .error .attributeError
  | some tau => .ok (predict_from_scores_dfs tau y_scores_dfs)

end SingleThresholdMethod

namespace DoubleThresholdMethod

/-- The threshold attributes of a `DoubleThresholdMethod` instance.  `__init__`
(src/src/methods.py lines 41-56) sets none of them; the empty-filter branch of
`optimize_thresholds` sets only `optimal_threshold`, while
`calculate_and_set_thresholds` sets all three. -/
structure State where
  optimal_threshold : Option (EVal × EVal)
  optimal_negative_threshold : Option EVal
  optimal_positive_threshold : Option EVal
deriving DecidableEq, Repr

/-- A freshly constructed instance. -/
def freshState : State := ⟨none, none, none⟩

/-- Result of `_calculate_interpolated_partial_confmat` (src/src/methods.py
lines 83-136): per cutoff, interpolated `fps`, `tps`, `fns` columns on the
common descending grid `thresholds`. -/
structure InterpCM where
  fps : List (List ℚ)
  tps : List (List ℚ)
  fns : List (List ℚ)
  thresholds : List ℚ
deriving Repr

/-- Embeds `DoubleThresholdMethod._calculate_interpolated_partial_confmat`:
for `whichNegative = true` keep samples with `score < 0` and use `|score|`,
otherwise keep samples with `score >= 0`; per cutoff take `_binary_clf_curve`,
set `fns = tps[-1] - tps`, fold the running `min`/`max` threshold from `0`, and
interpolate each of `fps`, `tps`, `fns` (passed reversed, i.e. ascending in
threshold) over `linspace(max, min, interpLen)`. -/
def calcInterpolatedPartialConfmat (y_dfs y_scores_dfs : List (List ℚ))
    (filters : List (List (List Bool))) (nCutoffs interpLen : ℕ)
    (whichNegative : Bool) : InterpCM :=
  let curves := (List.range nCutoffs).map (fun c =>
    let pairs := filter_label_and_scores_to_array y_dfs y_scores_dfs filters c
    let pairs2 := if whichNegative
      then (pairs.filter (fun p => p.2 < 0)).map (fun p => (p.1, |p.2|))
      else pairs.filter (fun p => 0 ≤ p.2)
    binary_clf_curve pairs2)
  let minT := curves.foldl (fun m cur => min m (listMin (cur.map (fun t => t.1)))) 0
  let maxT := curves.foldl (fun m cur => max m (listMax (cur.map (fun t => t.1)))) 0
  let grid := linspace maxT minT interpLen
  { fps := curves.map (fun cur => grid.map (fun t =>
      interp1 t ((cur.map (fun e => e.1)).reverse.zip (cur.map (fun e => e.2.2)).reverse))),
    tps := curves.map (fun cur => grid.map (fun t =>
      interp1 t ((cur.map (fun e => e.1)).reverse.zip (cur.map (fun e => e.2.1)).reverse))),
    fns := curves.map (fun cur =>
      let tpsLast := (cur.map (fun e => e.2.1)).getLastD 0
      grid.map (fun t =>
        interp1 t ((cur.map (fun e => e.1)).reverse.zip
          (cur.map (fun e => tpsLast - e.2.1)).reverse))),
    thresholds := grid }

/-- Embeds `DoubleThresholdMethod.calculate_and_set_thresholds` with
`_calculate_grid_scores` and `_find_max_score_indices_for_cutoffs`
(src/src/methods.py lines 138-185): meshgrid sums of lower/upper partial
confusion components per used cutoff, an F-beta grid summed over used cutoffs,
`np.argmax` over the C-order flattening (row `i` indexes the upper grid, column
`j` the lower grid), `np.unravel_index`, and
`(-negative_thresholds[idx[1]], positive_thresholds[idx[0]])`. -/
def calculate_and_set_thresholds (lower upper : InterpCM) (used : List ℕ)
    (beta : ℚ) : ℚ × ℚ :=
  let nLower := lower.thresholds.length
  let nUpper := upper.thresholds.length
  let cell := fun (i j : ℕ) =>
    (used.map (fun c =>
      f_beta_from_confmat
        ((lower.fps.getD c []).getD j 0 + (upper.fps.getD c []).getD i 0)
        ((lower.tps.getD c []).getD j 0 + (upper.tps.getD c []).getD i 0)
        ((lower.fns.getD c []).getD j 0 + (upper.fns.getD c []).getD i 0)
        beta)).sum
  let flat := (List.range nUpper).map (fun i => (List.range nLower).map (cell i)) |>.flatten
  let flatIdx := argmax flat
  (-(lower.thresholds.getD (flatIdx % nLower) 0),
    upper.thresholds.getD (flatIdx / nLower) 0)

/-- Embeds `DoubleThresholdMethod.optimize_thresholds` (src/src/methods.py
lines 64-81) on a fresh instance.  The empty-filter branch sets only
`optimal_threshold = (-np.inf, np.inf)`; the main branch computes both partial
confusion interpolations and sets all three attributes. -/
def optimize_thresholds (st : State) (y_dfs y_scores_dfs : List (List ℚ))
    (filters : List (List (List Bool))) (used : List ℕ) (beta : ℚ) (interpLen : ℕ) : State :=
  if filters = [] then { st with optimal_threshold := some (.negInf, .posInf) }
  else
    let nCutoffs := (filters.headD []).length
    let lower := calcInterpolatedPartialConfmat y_dfs y_scores_dfs filters nCutoffs interpLen true
    let upper := calcInterpolatedPartialConfmat y_dfs y_scores_dfs filters nCutoffs interpLen false
    let tpair := calculate_and_set_thresholds lower upper used beta
    { optimal_threshold := some (.fin tpair.1, .fin tpair.2),
      optimal_negative_threshold := some (.fin tpair.1),
      optimal_positive_threshold := some (.fin tpair.2) }

/-- Stateful entry to `predict_from_scores_dfs`: the method reads
`self.optimal_negative_threshold` and `self.optimal_positive_threshold` (never
`self.optimal_threshold`); unset attributes raise `AttributeError`. -/
def predict_from_scores_dfs_st (st : State) (y_scores_dfs : List (List ℚ)) :
    Except AttrError (List (List ℚ)) :=
  match st.optimal_negative_threshold, st.optimal_positive_threshold with
  | some tneg, some tpos => .ok (predict_from_scores_dfs tneg tpos y_scores_dfs)
  | _, _ => .error .attributeError

end DoubleThresholdMethod

/-- The largest absolute score observed in a batch (`0` for an empty batch). -/
def absMax (y_scores_dfs : List (List ℚ)) : ℚ :=
  listMax (y_scores_dfs.flatten.map (fun s => |s|))

/-- An event-length cutoff pair `(low, high]`; `high` may be `np.inf` (the
canonical last bucket is `(4032, inf)`), so bounds are extended values. -/
structure Cutoff where
  lo : EVal
  hi : EVal
deriving DecidableEq, Repr

/-- `np.logical_or.reduce` over boolean masks.  NumPy's reduction of an empty
list is the scalar `False`, which then broadcasts against the other operands:
embedded as a `False` mask of the ambient length `n`. -/
def orReduceBool (fs : List (List Bool)) (n : ℕ) : List Bool :=
  fs.foldr (fun f acc => List.zipWith or f acc) (List.replicate n false)

/-- Embeds `get_label_filters_for_all_cutoffs` (src/src/preprocess.py lines
17-43).  `uncertain_filter = np.isin(y, uncertain_codes)`; per cutoff the
partial filter is `lengths > low && lengths <= high`; a bucket's full filter
ORs the uncertain mask, the other buckets' partial filters, and (when
`remove_missing`) `missing != 0`.  The Python keys a dict by `str(cutoffs)`
built over `all_cutoffs` in order; here the masks are returned as a list in
cutoff order.  `set(all_cutoffs).difference({cutoffs})` removes every tuple
equal to the current one and forgets duplicates, which a boolean OR-reduction
cannot observe: embedded as `List.filter (· ≠ c)`. -/
def get_label_filters_for_all_cutoffs (y : List ℚ) (lengths : List ℚ)
    (all_cutoffs : List Cutoff) (remove_missing : Bool) (missing : List ℚ)
    (uncertain_codes : List ℚ) : List (List Bool) :=
  let uncertain := y.map (fun v => decide (v ∈ uncertain_codes))
  let partialFor := fun (c : Cutoff) =>
    lengths.map (fun L => c.lo.ltb (.fin L) && (EVal.fin L).leb c.hi)
  all_cutoffs.map (fun c =>
    let others := all_cutoffs.filter (fun c2 => c2 ≠ c)
    let length_filter := orReduceBool (others.map partialFor) lengths.length
    if remove_missing then
      orReduceBool [uncertain, length_filter, missing.map (fun m => decide (m ≠ 0))] y.length
    else
      List.zipWith or uncertain length_filter)

/-- NumPy slice assignment `lengths[start:stop] = v` on a list of counts. -/
def writeRange (l : List ℕ) (start stop v : ℕ) : List ℕ :=
  l.mapIdx (fun i x => if start ≤ i ∧ i < stop then v else x)

/-- Loop state of `get_event_lengths`: the lengths array, whether an event is
open, and the open event's start index (`event_start_index` is `None` in
Python until first assigned, but it is only read while an event is open, so a
plain natural suffices). -/
structure EventState where
  lengths : List ℕ
  event_started : Bool
  event_start_index : ℕ
deriving Repr

/-- One iteration of the `for i in range(len(y_df))` loop of
`get_event_lengths` (src/src/preprocess.py lines 52-73): close the open event
when the label leaves 1 (writing its length over `[start, i)`), or open an
event when the label becomes 1. -/
def eventStep (y : List ℚ) (st : EventState) (i : ℕ) : EventState :=
  if st.event_started then
    if y.getD i 0 ≠ 1 then
      { lengths := writeRange st.lengths st.event_start_index i (i - st.event_start_index),
        event_started := false,
        event_start_index := st.event_start_index }
    else st
  else
    if y.getD i 0 = 1 then
      { st with event_started := true, event_start_index := i }
    else st

/-- Embeds `get_event_lengths` (src/src/preprocess.py lines 45-80): start
from an all-zero array, run the loop over every index, and close a still-open
event at `n` (`event_end_index = i + 1` with `i = n - 1`). -/
def get_event_lengths (y : List ℚ) : List ℕ :=
  let st := (List.range y.length).foldl (eventStep y) ⟨List.replicate y.length 0, false, 0⟩
  if st.event_started then
    writeRange st.lengths st.event_start_index y.length (y.length - st.event_start_index)
  else st.lengths

/-- Start index of the maximal contiguous `label == 1` run containing `i`
(meaningful when `y[i] == 1`). -/
def runStart (y : List ℚ) : ℕ → ℕ
  | 0 => 0
  | i + 1 => if y.getD i 0 = 1 then runStart y i else i + 1

/-- Length of the initial all-ones segment of a label list. -/
def onesFrom : List ℚ → ℕ
  | [] => 0
  | a :: r => if a = 1 then onesFrom r + 1 else 0

/-- The length of the maximal contiguous `label == 1` run containing `i`, or
`0` when `y[i] ≠ 1` — the value the spec assigns to `event_length[i]`. -/
def runLen (y : List ℚ) (i : ℕ) : ℕ :=
  if y.getD i 0 = 1 then (i + onesFrom (y.drop i)) - runStart y i else 0

/-- Equality of pandas cell values as `find_subsequent_duplicates` sees them:
a null (`NaN`) compares unequal to everything, itself included. -/
def cellEq (a b : Option ℚ) : Bool :=
  match a, b with
  | some x, some y => x = y
  | _, _ => false

/-- One iteration (index `i ≥ 1`) of the `find_subsequent_duplicates` loop
(src/src/preprocess.py lines 91-99): extend or reset the run counter, then,
when it reaches `subsequent_duplicates`, write 1 over the whole current run
`[i - count + 1, i + 1)` (the Python `i - count + 1` is exact integer
arithmetic; since `count ≤ i + 1` always holds it equals `i + 1 - count` in
ℕ). -/
def dupStep (y : List (Option ℚ)) (K : ℕ) (st : ℕ × List ℕ) (i : ℕ) : ℕ × List ℕ :=
  let count := if cellEq (y.getD i none) (y.getD (i - 1) none) then st.1 + 1 else 1
  if K ≤ count then
    (count, writeRange st.2 (i + 1 - count) (i + 1) 1)
  else
    (count, st.2)

/-- Embeds `find_subsequent_duplicates` (src/src/preprocess.py lines 83-101):
the all-zero mask when `n < 2` or `subsequent_duplicates < 1`, otherwise the
counting loop over indices `1 .. n-1` starting from `count = 1`. -/
def find_subsequent_duplicates (y : List (Option ℚ)) (K : ℕ) : List ℕ :=
  if y.length < 2 ∨ K < 1 then List.replicate y.length 0
  else (((List.range (y.length - 1)).map (fun i => i + 1)).foldl (dupStep y K)
    (1, List.replicate y.length 0)).2

/-- Start of the maximal run of consecutive `cellEq`-equal values containing `i`. -/
def eqRunStart (y : List (Option ℚ)) : ℕ → ℕ
  | 0 => 0
  | i + 1 => if cellEq (y.getD (i + 1) none) (y.getD i none) then eqRunStart y i else i + 1

/-- Number of indices beyond the head that continue the head's equal run. -/
def chainLen : List (Option ℚ) → ℕ
  | [] => 0
  | [_] => 0
  | a :: b :: r => if cellEq b a then chainLen (b :: r) + 1 else 0

/-- End (exclusive) of the maximal equal-value run containing `i`. -/
def eqRunEnd (y : List (Option ℚ)) (i : ℕ) : ℕ := i + 1 + chainLen (y.drop i)

/-- Length of the maximal run of consecutive equal values containing `i` —
the spec's "run of consecutive equal values". -/
def eqRunLen (y : List (Option ℚ)) (i : ℕ) : ℕ := eqRunEnd y i - eqRunStart y i

/-- Embeds the missing-mask construction of `preprocess_data`
(src/src/preprocess.py lines 136-145) for one station: start from the
supplied `missing` column (all zeros when none is supplied), set 1 where
`BU_original` is null, then 1 where `S_original` is null, and finally
`np.logical_or` with `find_subsequent_duplicates(S, subsequent_nr)`.  `S` is
a copy of the (possibly kW-rescaled) `S_original`, so one list serves as both:
rescaling by 1000 preserves both nullness and equality of adjacent cells. -/
def preprocessMissing (supplied : List ℚ) (S BU : List (Option ℚ)) (K : ℕ) : List Bool :=
  let m1 := (supplied.zip BU).map (fun p => if p.2 = none then (1 : ℚ) else p.1)
  let m2 := (m1.zip S).map (fun p => if p.2 = none then (1 : ℚ) else p.1)
  let dup := find_subsequent_duplicates S K
  (m2.zip dup).map (fun p => decide (p.1 ≠ 0) || decide (p.2 ≠ 0))

/-- The pointwise partial-filter predicate of
`get_label_filters_for_all_cutoffs`: event length `L` falls into cutoff `c`
when `lo < L` (strict) and `L <= hi` (inclusive). -/
def inBucket (c : Cutoff) (L : ℚ) : Bool :=
  c.lo.ltb (.fin L) && (EVal.fin L).leb c.hi

/-- `np.sign` on an exact rational. -/
def npSign (x : ℚ) : ℚ := if 0 < x then 1 else if x < 0 then -1 else 0

/-- Auxiliary walk for `argminQ`: current index, best index, best value. -/
def argminAux : List ℚ → ℕ → ℕ → ℚ → ℕ
  | [], _, bi, _ => bi
  | x :: rest, i, bi, bv =>
    if x < bv then argminAux rest (i + 1) i x else argminAux rest (i + 1) bi bv

/-- `Series.argmin`: index of the first minimal element (`0` for the empty
list, which the callers below never pass when the real code runs). -/
def argminQ : List ℚ → ℕ
  | [] => 0
  | x :: rest => argminAux rest 1 0 x

/-- Embeds lines 166-168 of `preprocess_data` (src/src/preprocess.py): set
`BU = a*BU_original + b` and flip `S = np.sign(BU) * S` exactly when
`min(S_original) >= 0` and `BU_original` — the RAW column, not the fitted one
— is negative at `argmin(S_original)`.  The fit coefficients `(a, b)` come
from `match_bottomup_load`, i.e. a `scipy.optimize.minimize` run, and enter
as parameters. -/
def preprocessSignFlip (a b : ℚ) (S_original BU_original S : List ℚ) :
    List ℚ × List ℚ :=
  let BU := BU_original.map (fun x => a * x + b)
  let S2 := if 0 ≤ listMin S_original
      ∧ BU_original.getD (argminQ S_original) 0 < 0 then
      (BU.zip S).map (fun p => npSign p.1 * p.2)
    else S
  (BU, S2)

/-- The sign-flip step as the SPEC words it (section 4.1 step 6, and claim
C6): the flip condition reads the FITTED value `a*BU_original + b` at
`argmin(S_original)`.  Kept for comparison with `preprocessSignFlip`, which
embeds the code. -/
def preprocessSignFlipSpec (a b : ℚ) (S_original BU_original S : List ℚ) :
    List ℚ × List ℚ :=
  let BU := BU_original.map (fun x => a * x + b)
  let S2 := if 0 ≤ listMin S_original ∧ BU.getD (argminQ S_original) 0 < 0 then
      (BU.zip S).map (fun p => npSign p.1 * p.2)
    else S
  (BU, S2)

/-- Result of a `scipy.optimize.minimize` run, modelled as an oracle
parameter: the parameter vector `x` and the convergence flag `success`. -/
structure OptimizeResult where
  x : ℚ × ℚ
  success : Bool
deriving DecidableEq, Repr

/-- Embeds `match_bottomup_load` (src/src/preprocess.py lines 187-210) with
the optimizer run abstracted: the code returns `ab.x` unconditionally —
`ab.success` is never consulted and there is no fallback to the initial
guess `(1, 0)`. -/
def match_bottomup_load (ab : OptimizeResult) : ℚ × ℚ := ab.x

/-- Errors that can arise in the linear-fit preparation of
`preprocess_data`. -/
inductive PreprocessError where
  | insufficientData
  | numpyEmptyReduction
deriving DecidableEq, Repr

/-- Ascending insertion, for `np.percentile`'s sort. -/
def insertAsc (x : ℚ) : List ℚ → List ℚ
  | [] => [x]
  | y :: r => if x ≤ y then x :: y :: r else y :: insertAsc x r

/-- Ascending insertion sort, for `np.percentile`. -/
def sortAsc : List ℚ → List ℚ
  | [] => []
  | x :: r => insertAsc x (sortAsc r)

/-- `np.percentile(arr, q)` with the default linear interpolation on the
sorted data (`q` in percent); only meaningful for non-empty `arr` (NumPy
raises on an empty one, which `linFitPrep` checks first). -/
def percentile (arr : List ℚ) (q : ℚ) : ℚ :=
  let sorted := sortAsc arr
  let pos := q * ((sorted.length : ℚ) - 1) / 100
  let lo := (⌊pos⌋).toNat
  let base := sorted.getD lo 0
  base + (pos - (⌊pos⌋ : ℚ)) * (sorted.getD (lo + 1) base - base)

/-- Embeds the candidate-set construction of `preprocess_data`
(src/src/preprocess.py lines 157-163): keep rows with `missing == 0`, compute
the two configured percentiles of their `diff_original`, and keep the rows
strictly between them.  When the `missing == 0` selection is empty,
`np.percentile` raises numpy's zero-size-reduction error — the code contains
no `InsufficientDataError` (the constructor exists in `PreprocessError` only
because the spec names it); when merely the strict percentile band is empty,
nothing is raised and the empty candidate list flows on to the optimizer. -/
def linFitPrep (missing diff_original : List ℚ) (lowQ upQ : ℚ) :
    Except PreprocessError (List ℚ) :=
  let arr := ((missing.zip diff_original).filter (fun p => p.1 = 0)).map (fun p => p.2)
  if arr.isEmpty then .error .numpyEmptyReduction
  else
    let lowV := percentile arr lowQ
    let upV := percentile arr upQ
    .ok (arr.filter (fun d => lowV < d ∧ d < upV))

namespace StackEnsemble

/-- `np.logical_or` of two float arrays: elementwise "either is nonzero",
with numpy's boolean output rendered as `1`/`0`. -/
def logicalOrQ (x y : List ℚ) : List ℚ :=
  List.zipWith (fun a b => if a ≠ 0 ∨ b ≠ 0 then (1 : ℚ) else 0) x y

/-- `np.logical_or.reduce` on a list of float arrays: a singleton list returns
its array unchanged, longer lists are combined pairwise left-to-right.  The
caller reads `prediction_list[0]` first, so the list is never empty when the
real code runs (totalized to `[]`). -/
def logicalOrReduce : List (List ℚ) → List ℚ
  | [] => []
  | x :: rest => rest.foldl logicalOrQ x

/-- Embeds `StackEnsemble._combine_predictions` (src/src/methods.py lines
1699-1707): for each station `i` (of `len(prediction_list[0])` stations),
gather every model's station-`i` prediction frame and reduce with
`np.logical_or`.  `prediction_list` is indexed model → station → sample. -/
def combine_predictions (prediction_list : List (List (List ℚ))) : List (List ℚ) :=
  (List.range (prediction_list.headD []).length).map (fun i =>
    logicalOrReduce (prediction_list.map (fun dfs => dfs.getD i [])))

/-- Embeds the score combination of `StackEnsemble.fit_transform_predict`
(src/src/methods.py line 1681): `scores = [pd.concat([scores[i] for scores in
_scores], axis=1) for i in range(len(_scores[0]))]`.  A station's score frame
is a list of columns; per station the models' frames are concatenated
column-wise in model order.  `scores_list` is indexed model → station →
column → sample. -/
def combine_scores (scores_list : List (List (List (List ℚ)))) : List (List (List ℚ)) :=
  (List.range (scores_list.headD []).length).map (fun i =>
    (scores_list.map (fun dfs => dfs.getD i [])).flatten)

end StackEnsemble

/-- Invariant of the `get_event_lengths` loop after processing the first `k`
indices: lengths array sized like `y`; when an event is open, its start is
before `k`, labels from the start up to `k` are all 1, the start is a true
run boundary, and all entries from the start on are still 0 while earlier
entries already hold their final run length; when no event is open, entries
before `k` are final and the label just before `k` (if any) is not 1. -/
def EventInv (y : List ℚ) (k : ℕ) (st : EventState) : Prop :=
  st.lengths.length = y.length
  ∧ (st.event_started = true →
      st.event_start_index < k
      ∧ (∀ j, st.event_start_index ≤ j → j < k → y.getD j 0 = 1)
      ∧ (st.event_start_index = 0 ∨ y.getD (st.event_start_index - 1) 0 ≠ 1)
      ∧ (∀ j, j < y.length →
          st.lengths.getD j 0 = if j < st.event_start_index then runLen y j else 0))
  ∧ (st.event_started = false →
      (k = 0 ∨ y.getD (k - 1) 0 ≠ 1)
      ∧ (∀ j, j < y.length → st.lengths.getD j 0 = if j < k then runLen y j else 0))

/-- Invariant of the `find_subsequent_duplicates` loop after processing
indices `1 .. m`: the counter equals the length of the equal-run ending at
`m`, and an entry is marked exactly when its run, clipped to the processed
region `[0, m]`, has already reached `K` samples. -/
def DupInv (y : List (Option ℚ)) (K m : ℕ) (st : ℕ × List ℕ) : Prop :=
  st.1 = m + 1 - eqRunStart y m
  ∧ st.2.length = y.length
  ∧ ∀ j, j < y.length →
      (st.2.getD j 0 = 1 ↔ (j ≤ m ∧ K ≤ min (m + 1) (eqRunEnd y j) - eqRunStart y j))
      ∧ (st.2.getD j 0 = 0 ∨ st.2.getD j 0 = 1)

/-- Invariant of the `find_subsequent_duplicates` loop at
`subsequent_duplicates = 1` after processing indices `1 .. m`: the counter
equals the length of the equal-run ending at `m`, and since the write-back
fires at every processed index, every index in `1 .. m` is marked, while
index 0 is marked exactly when at least one index has been processed and the
first two values are equal. -/
def DupInv1 (y : List (Option ℚ)) (m : ℕ) (st : ℕ × List ℕ) : Prop :=
  st.1 = m + 1 - eqRunStart y m
  ∧ st.2.length = y.length
  ∧ ∀ j, j < y.length →
      (st.2.getD j 0 = 1
        ↔ ((1 ≤ j ∧ j ≤ m)
            ∨ (j = 0 ∧ 1 ≤ m ∧ cellEq (y.getD 1 none) (y.getD 0 none) = true)))
      ∧ (st.2.getD j 0 = 0 ∨ st.2.getD j 0 = 1)

lemma le_foldl_max (init : ℚ) (l : List ℚ) : init ≤ l.foldl max init := by
  induction l generalizing init with
  | nil => exact le_refl _
  | cons b r ih => exact le_trans (le_max_left init b) (ih (max init b))

lemma mem_le_foldl_max {x : ℚ} {l : List ℚ} (init : ℚ) (hx : x ∈ l) :
    x ≤ l.foldl max init := by
  induction l generalizing init with
  | nil => cases hx
  | cons b r ih =>
    rcases List.mem_cons.mp hx with rfl | hx
    · exact le_trans (le_max_right init x) (le_foldl_max _ _)
    · exact ih _ hx

lemma foldl_max_le {M : ℚ} {l : List ℚ} (init : ℚ) (hi : init ≤ M)
    (h : ∀ x ∈ l, x ≤ M) : l.foldl max init ≤ M := by
  induction l generalizing init with
  | nil => exact hi
  | cons b r ih =>
    exact ih (max init b) (max_le hi (h b (List.mem_cons_self b r)))
      (fun x hx => h x (List.mem_cons_of_mem _ hx))

lemma listMax_ge {x : ℚ} {l : List ℚ} (hx : x ∈ l) : x ≤ listMax l := by
  cases l with
  | nil => cases hx
  | cons a r =>
    rcases List.mem_cons.mp hx with rfl | hx
    · exact le_foldl_max _ _
    · exact mem_le_foldl_max _ hx

lemma listMax_le {M : ℚ} {l : List ℚ} (h0 : 0 ≤ M) (h : ∀ x ∈ l, x ≤ M) :
    listMax l ≤ M := by
  cases l with
  | nil => exact h0
  | cons a r =>
    exact foldl_max_le _ (h a (List.mem_cons_self a r))
      (fun x hx => h x (List.mem_cons_of_mem _ hx))

lemma le_foldl_min {m : ℚ} {l : List ℚ} (init : ℚ) (hi : m ≤ init)
    (h : ∀ x ∈ l, m ≤ x) : m ≤ l.foldl min init := by
  induction l generalizing init with
  | nil => exact hi
  | cons b r ih =>
    exact ih (min init b) (le_min hi (h b (List.mem_cons_self b r)))
      (fun x hx => h x (List.mem_cons_of_mem _ hx))

lemma listMin_nonneg {l : List ℚ} (h : ∀ x ∈ l, 0 ≤ x) : 0 ≤ listMin l := by
  cases l with
  | nil => exact le_refl 0
  | cons a r =>
    exact le_foldl_min _ (h a (List.mem_cons_self a r))
      (fun x hx => h x (List.mem_cons_of_mem _ hx))

lemma listMax_nonneg {l : List ℚ} (h : ∀ x ∈ l, 0 ≤ x) : 0 ≤ listMax l := by
  cases l with
  | nil => exact le_refl 0
  | cons a r => exact le_trans (h a (List.mem_cons_self a r)) (le_foldl_max _ _)

lemma absMax_nonneg (y_scores_dfs : List (List ℚ)) : 0 ≤ absMax y_scores_dfs := by
  apply listMax_nonneg
  intro x hx
  rcases List.mem_map.mp hx with ⟨s, _, rfl⟩
  exact abs_nonneg s

lemma foldl_minf_eq_zero {α : Type} (f : α → ℚ) (l : List α)
    (h : ∀ x ∈ l, 0 ≤ f x) : l.foldl (fun m x => min m (f x)) 0 = 0 := by
  induction l with
  | nil => rfl
  | cons a r ih =>
    rw [List.foldl_cons, min_eq_left (h a (List.mem_cons_self a r))]
    exact ih (fun x hx => h x (List.mem_cons_of_mem _ hx))

lemma le_foldl_maxf {α : Type} (f : α → ℚ) (l : List α) (init : ℚ) :
    init ≤ l.foldl (fun m x => max m (f x)) init := by
  induction l generalizing init with
  | nil => exact le_refl _
  | cons a r ih => exact le_trans (le_max_left init (f a)) (ih (max init (f a)))

lemma foldl_maxf_le {α : Type} {M : ℚ} (f : α → ℚ) (l : List α) (init : ℚ)
    (hi : init ≤ M) (h : ∀ x ∈ l, f x ≤ M) :
    l.foldl (fun m x => max m (f x)) init ≤ M := by
  induction l generalizing init with
  | nil => exact hi
  | cons a r ih =>
    exact ih (max init (f a)) (max_le hi (h a (List.mem_cons_self a r)))
      (fun x hx => h x (List.mem_cons_of_mem _ hx))

lemma linspace_mem_bounds {a b x : ℚ} {n : ℕ} (hba : b ≤ a)
    (hx : x ∈ linspace a b n) : b ≤ x ∧ x ≤ a := by
  unfold linspace at hx
  rcases List.mem_map.mp hx with ⟨i, hi, rfl⟩
  by_cases hn : n ≤ 1
  · rw [if_pos hn]; exact ⟨hba, le_refl a⟩
  · rw [if_neg hn]
    have hd : (0 : ℚ) < (n : ℚ) - 1 := by
      have : (2 : ℚ) ≤ (n : ℚ) := by exact_mod_cast Nat.not_le.mp hn
      linarith
    have hile : (i : ℚ) ≤ (n : ℚ) - 1 := by
      have : (i : ℚ) + 1 ≤ (n : ℚ) := by exact_mod_cast List.mem_range.mp hi
      linarith
    have hrw : a + (i : ℚ) * (b - a) / ((n : ℚ) - 1)
        = a + ((i : ℚ) / ((n : ℚ) - 1)) * (b - a) := by ring
    rw [hrw]
    have hr0 : 0 ≤ (i : ℚ) / ((n : ℚ) - 1) := div_nonneg (Nat.cast_nonneg i) (le_of_lt hd)
    have hr1 : (i : ℚ) / ((n : ℚ) - 1) ≤ 1 := (div_le_one hd).mpr hile
    constructor
    · nlinarith [mul_nonneg (sub_nonneg.mpr hr1) (sub_nonneg.mpr hba)]
    · nlinarith [mul_nonneg hr0 (sub_nonneg.mpr hba)]

lemma mem_insertByScoreDesc {x p : ℚ × ℚ} :
    ∀ {l : List (ℚ × ℚ)}, x ∈ insertByScoreDesc p l → x = p ∨ x ∈ l := by
  intro l
  induction l with
  | nil =>
    intro hx
    rcases List.mem_singleton.mp hx with rfl
    exact Or.inl rfl
  | cons q rest ih =>
    intro hx
    rw [insertByScoreDesc] at hx
    by_cases hc : p.2 < q.2
    · rw [if_pos hc] at hx
      rcases List.mem_cons.mp hx with rfl | hx
      · exact Or.inr (List.mem_cons_self _ _)
      · rcases ih hx with h | h
        · exact Or.inl h
        · exact Or.inr (List.mem_cons_of_mem _ h)
    · rw [if_neg hc] at hx
      rcases List.mem_cons.mp hx with rfl | hx
      · exact Or.inl rfl
      · exact Or.inr hx

lemma mem_sortByScoreDesc {x : ℚ × ℚ} :
    ∀ {l : List (ℚ × ℚ)}, x ∈ sortByScoreDesc l → x ∈ l := by
  intro l
  induction l with
  | nil => intro hx; cases hx
  | cons p rest ih =>
    intro hx
    rw [sortByScoreDesc] at hx
    rcases mem_insertByScoreDesc hx with rfl | hx
    · exact List.mem_cons_self _ _
    · exact List.mem_cons_of_mem _ (ih hx)

lemma clfCurveAux_fst_mem :
    ∀ (l : List (ℚ × ℚ)) (pos total : ℚ) (x : ℚ × ℚ × ℚ),
      x ∈ clfCurveAux l pos total → x.1 ∈ l.map (fun p => p.2) := by
  intro l
  induction l with
  | nil => intro pos total x hx; cases hx
  | cons hd rest ih =>
    intro pos total x hx
    obtain ⟨y, s⟩ := hd
    cases rest with
    | nil =>
      rw [clfCurveAux] at hx
      rcases List.mem_singleton.mp hx with rfl
      exact List.mem_map.mpr ⟨(y, s), List.mem_cons_self _ _, rfl⟩
    | cons hd2 rest2 =>
      obtain ⟨y2, s2⟩ := hd2
      simp only [clfCurveAux] at hx
      by_cases hc : s2 = s
      · rw [if_pos hc] at hx
        exact List.mem_cons_of_mem _ (ih _ _ x hx)
      · rw [if_neg hc] at hx
        rcases List.mem_cons.mp hx with rfl | hx
        · exact List.mem_map.mpr ⟨(y, s), List.mem_cons_self _ _, rfl⟩
        · exact List.mem_cons_of_mem _ (ih _ _ x hx)

lemma binary_clf_curve_fst_mem {pairs : List (ℚ × ℚ)} {x : ℚ × ℚ × ℚ}
    (hx : x ∈ binary_clf_curve pairs) : ∃ p ∈ pairs, p.2 = x.1 := by
  have h := clfCurveAux_fst_mem _ 0 0 x hx
  rcases List.mem_map.mp h with ⟨p, hp, he⟩
  exact ⟨p, mem_sortByScoreDesc hp, he⟩

lemma precision_recall_curve_thresholds_mem {pairs : List (ℚ × ℚ)} {t : ℚ}
    (ht : t ∈ (precision_recall_curve pairs).2.2) : ∃ p ∈ pairs, p.2 = t := by
  unfold precision_recall_curve at ht
  simp only at ht
  have h1 : t ∈ (binary_clf_curve pairs).map (fun e => e.1) :=
    List.take_subset _ _ (List.mem_reverse.mp ht)
  rcases List.mem_map.mp h1 with ⟨e, he, rfl⟩
  exact binary_clf_curve_fst_mem he

lemma filter_pairs_score_mem {y_dfs y_scores_dfs : List (List ℚ)}
    {filters : List (List (List Bool))} {c : ℕ} {p : ℚ × ℚ}
    (hp : p ∈ filter_label_and_scores_to_array y_dfs y_scores_dfs filters c) :
    p.2 ∈ y_scores_dfs.flatten := by
  unfold filter_label_and_scores_to_array at hp
  rcases List.mem_flatten.mp hp with ⟨inner, hinner, hpin⟩
  rcases List.mem_map.mp hinner with ⟨st, hst, rfl⟩
  rcases List.mem_map.mp hpin with ⟨q, hq, rfl⟩
  have hq2 : q.2 ∈ st.2.1.zip (st.2.2.getD c []) :=
    (List.of_mem_zip (List.mem_filter.mp hq).1).2
  have hq21 : q.2.1 ∈ st.2.1 := (List.of_mem_zip hq2).1
  have hst21 : st.2.1 ∈ y_scores_dfs := (List.of_mem_zip (List.of_mem_zip hst).2).1
  exact List.mem_flatten.mpr ⟨st.2.1, hst21, hq21⟩

lemma getD_mem_or_default (l : List ℚ) (k : ℕ) : l.getD k 0 ∈ l ∨ l.getD k 0 = 0 := by
  by_cases hk : k < l.length
  · left
    simp only [List.getD_eq_getElem?_getD, List.getElem?_eq_getElem hk, Option.getD_some]
    exact List.getElem_mem hk
  · right
    exact List.getD_eq_default _ _ (le_of_not_lt hk)

lemma single_curve_thresholds_bounds (y_dfs y_scores_dfs : List (List ℚ))
    (filters : List (List (List Bool))) (c : ℕ) :
    ∀ t ∈ (precision_recall_curve
        ((filter_label_and_scores_to_array y_dfs y_scores_dfs filters c).map
          (fun p => (p.1, |p.2|)))).2.2,
      0 ≤ t ∧ t ≤ absMax y_scores_dfs := by
  intro t ht
  rcases precision_recall_curve_thresholds_mem ht with ⟨q, hq, rfl⟩
  rcases List.mem_map.mp hq with ⟨p, hp, rfl⟩
  refine ⟨abs_nonneg _, ?_⟩
  show |p.2| ≤ absMax y_scores_dfs
  unfold absMax
  exact listMax_ge (List.mem_map.mpr ⟨p.2, filter_pairs_score_mem hp, rfl⟩)

lemma clf_thresholds_nonneg {pairs2 : List (ℚ × ℚ)} (h : ∀ p ∈ pairs2, 0 ≤ p.2) :
    ∀ x ∈ binary_clf_curve pairs2, 0 ≤ x.1 := by
  intro x hx
  rcases binary_clf_curve_fst_mem hx with ⟨p, hp, he⟩
  rw [← he]
  exact h p hp

lemma single_calculate_bounds (y_dfs y_scores_dfs : List (List ℚ))
    (filters : List (List (List Bool))) (nCutoffs interpLen : ℕ) (used : List ℕ) (beta : ℚ) :
    0 ≤ SingleThresholdMethod.calculate_and_set_thresholds
        (SingleThresholdMethod.calcInterpolatedRecallPrecision y_dfs y_scores_dfs filters
          nCutoffs interpLen) used beta
    ∧ SingleThresholdMethod.calculate_and_set_thresholds
        (SingleThresholdMethod.calcInterpolatedRecallPrecision y_dfs y_scores_dfs filters
          nCutoffs interpLen) used beta ≤ absMax y_scores_dfs := by
  set curves := (List.range nCutoffs).map (fun c =>
    precision_recall_curve ((filter_label_and_scores_to_array y_dfs y_scores_dfs filters c).map
      (fun p => (p.1, |p.2|)))) with hcurves
  have hbnd : ∀ cur ∈ curves, ∀ t ∈ cur.2.2, 0 ≤ t ∧ t ≤ absMax y_scores_dfs := by
    intro cur hcur
    rcases List.mem_map.mp hcur with ⟨c, _, rfl⟩
    exact single_curve_thresholds_bounds y_dfs y_scores_dfs filters c
  set minT := curves.foldl (fun m cur => min m (listMin cur.2.2)) 0 with hminT
  set maxT := curves.foldl (fun m cur => max m (listMax cur.2.2)) 0 with hmaxT
  have hmin0 : minT = 0 := by
    rw [hminT]
    exact foldl_minf_eq_zero (fun cur => listMin cur.2.2) curves
      (fun cur hcur => listMin_nonneg (fun t ht => (hbnd cur hcur t ht).1))
  have hmax0 : (0 : ℚ) ≤ maxT := le_foldl_maxf _ _ 0
  have hmaxM : maxT ≤ absMax y_scores_dfs :=
    foldl_maxf_le _ _ 0 (absMax_nonneg _)
      (fun cur hcur => listMax_le (absMax_nonneg _) (fun t ht => (hbnd cur hcur t ht).2))
  have key : ∀ k : ℕ, 0 ≤ (linspace maxT minT interpLen).getD k 0
      ∧ (linspace maxT minT interpLen).getD k 0 ≤ absMax y_scores_dfs := by
    intro k
    rcases getD_mem_or_default (linspace maxT minT interpLen) k with hmem | hzero
    · have hb := linspace_mem_bounds (le_trans (le_of_eq hmin0) hmax0) hmem
      exact ⟨le_trans (le_of_eq hmin0.symm) hb.1, le_trans hb.2 hmaxM⟩
    · rw [hzero]
      exact ⟨le_refl 0, absMax_nonneg _⟩
  exact key _

lemma confmat_thresholds_getD_nonneg (y_dfs y_scores_dfs : List (List ℚ))
    (filters : List (List (List Bool))) (nCutoffs interpLen : ℕ) (whichNegative : Bool) :
    ∀ k : ℕ, 0 ≤ (DoubleThresholdMethod.calcInterpolatedPartialConfmat y_dfs y_scores_dfs
        filters nCutoffs interpLen whichNegative).thresholds.getD k 0 := by
  set curves := (List.range nCutoffs).map (fun c =>
    let pairs := filter_label_and_scores_to_array y_dfs y_scores_dfs filters c
    let pairs2 := if whichNegative
      then (pairs.filter (fun p => p.2 < 0)).map (fun p => (p.1, |p.2|))
      else pairs.filter (fun p => 0 ≤ p.2)
    binary_clf_curve pairs2) with hcurves
  have hbnd : ∀ cur ∈ curves, ∀ t ∈ cur.map (fun e => e.1), 0 ≤ t := by
    intro cur hcur t ht
    rcases List.mem_map.mp ht with ⟨x, hx, rfl⟩
    rcases List.mem_map.mp hcur with ⟨c, _, rfl⟩
    apply clf_thresholds_nonneg ?_ x hx
    intro p hp
    cases whichNegative with
    | true =>
      rw [if_pos rfl] at hp
      rcases List.mem_map.mp hp with ⟨q, _, rfl⟩
      exact abs_nonneg _
    | false =>
      rw [if_neg (by simp)] at hp
      exact of_decide_eq_true (List.mem_filter.mp hp).2
  set minT := curves.foldl (fun m cur => min m (listMin (cur.map (fun t => t.1)))) 0 with hminT
  set maxT := curves.foldl (fun m cur => max m (listMax (cur.map (fun t => t.1)))) 0 with hmaxT
  have hmin0 : minT = 0 := by
    rw [hminT]
    exact foldl_minf_eq_zero (fun cur => listMin (cur.map (fun t => t.1))) curves
      (fun cur hcur => listMin_nonneg (fun t ht => hbnd cur hcur t ht))
  have hmax0 : (0 : ℚ) ≤ maxT := le_foldl_maxf _ _ 0
  have hthr : (DoubleThresholdMethod.calcInterpolatedPartialConfmat y_dfs y_scores_dfs
      filters nCutoffs interpLen whichNegative).thresholds = linspace maxT minT interpLen := rfl
  intro k
  rw [hthr]
  rcases getD_mem_or_default (linspace maxT minT interpLen) k with hmem | hzero
  · exact le_trans (le_of_eq hmin0.symm)
      (linspace_mem_bounds (le_trans (le_of_eq hmin0) hmax0) hmem).1
  · rw [hzero]

lemma double_calculate_bounds (y_dfs y_scores_dfs : List (List ℚ))
    (filters : List (List (List Bool))) (nCutoffs interpLen : ℕ) (used : List ℕ) (beta : ℚ) :
    (DoubleThresholdMethod.calculate_and_set_thresholds
        (DoubleThresholdMethod.calcInterpolatedPartialConfmat y_dfs y_scores_dfs filters
          nCutoffs interpLen true)
        (DoubleThresholdMethod.calcInterpolatedPartialConfmat y_dfs y_scores_dfs filters
          nCutoffs interpLen false)
        used beta).1 ≤ 0
    ∧ 0 ≤ (DoubleThresholdMethod.calculate_and_set_thresholds
        (DoubleThresholdMethod.calcInterpolatedPartialConfmat y_dfs y_scores_dfs filters
          nCutoffs interpLen true)
        (DoubleThresholdMethod.calcInterpolatedPartialConfmat y_dfs y_scores_dfs filters
          nCutoffs interpLen false)
        used beta).2 := by
  constructor
  · exact neg_nonpos.mpr
      (confmat_thresholds_getD_nonneg y_dfs y_scores_dfs filters nCutoffs interpLen true _)
  · exact confmat_thresholds_getD_nonneg y_dfs y_scores_dfs filters nCutoffs interpLen false _

end StormPhase2

open StormPhase2 in
/-- C4 (amended): after `optimize_thresholds` on a batch with a non-empty
label-filter list, the single-threshold variant's `optimal_threshold` is a
finite value in `[0, max observed |score|]` — it never exceeds the largest
observed absolute score but can fall below the smallest one (see the
counterexample) — and the double-threshold variant sets
`optimal_negative_threshold ≤ 0 ≤ optimal_positive_threshold`, with
`optimal_threshold` equal to that pair. -/
theorem C4_thresholds_amended (y_dfs y_scores_dfs : List (List ℚ))
    (f0 : List (List Bool)) (fs : List (List (List Bool))) (used : List ℕ)
    (beta : ℚ) (interpLen : ℕ) :
    (∃ t : ℚ,
      (SingleThresholdMethod.optimize_thresholds SingleThresholdMethod.freshState
          y_dfs y_scores_dfs (f0 :: fs) used beta interpLen).optimal_threshold
        = some (.fin t)
      ∧ 0 ≤ t ∧ t ≤ absMax y_scores_dfs)
    ∧ (∃ tneg tpos : ℚ,
      (DoubleThresholdMethod.optimize_thresholds DoubleThresholdMethod.freshState
          y_dfs y_scores_dfs (f0 :: fs) used beta interpLen).optimal_negative_threshold
        = some (.fin tneg)
      ∧ (DoubleThresholdMethod.optimize_thresholds DoubleThresholdMethod.freshState
          y_dfs y_scores_dfs (f0 :: fs) used beta interpLen).optimal_positive_threshold
        = some (.fin tpos)
      ∧ (DoubleThresholdMethod.optimize_thresholds DoubleThresholdMethod.freshState
          y_dfs y_scores_dfs (f0 :: fs) used beta interpLen).optimal_threshold
        = some (.fin tneg, .fin tpos)
      ∧ tneg ≤ 0 ∧ 0 ≤ tpos) := by
  constructor
  · refine ⟨_, rfl, ?_, ?_⟩
    · exact (single_calculate_bounds y_dfs y_scores_dfs (f0 :: fs)
        ((f0 :: fs).headD []).length interpLen used beta).1
    · exact (single_calculate_bounds y_dfs y_scores_dfs (f0 :: fs)
        ((f0 :: fs).headD []).length interpLen used beta).2
  · refine ⟨_, _, rfl, rfl, rfl, ?_, ?_⟩
    · exact (double_calculate_bounds y_dfs y_scores_dfs (f0 :: fs)
        ((f0 :: fs).headD []).length interpLen used beta).1
    · exact (double_calculate_bounds y_dfs y_scores_dfs (f0 :: fs)
        ((f0 :: fs).headD []).length interpLen used beta).2

open StormPhase2 in
/-- C5: for every score sequence and every threshold state, the single-threshold
predictor labels sample `j` of frame `i` as `1` exactly when `|score| ≥ τ`, the
double-threshold predictor labels it `1` exactly when `score < τ⁻ ∨ score ≥ τ⁺`;
all other samples are `0`, and the output frames have the same lengths as the
input frames. -/
theorem C5_predict_from_scores
    (tau tneg tpos : ℚ) (y_scores_dfs : List (List ℚ)) :
    ((SingleThresholdMethod.predict_from_scores_dfs (.fin tau) y_scores_dfs).length
        = y_scores_dfs.length
      ∧ ∀ i j : ℕ,
        ((SingleThresholdMethod.predict_from_scores_dfs (.fin tau) y_scores_dfs).getD i []).length
          = (y_scores_dfs.getD i []).length
        ∧ (j < (y_scores_dfs.getD i []).length →
            (((SingleThresholdMethod.predict_from_scores_dfs (.fin tau) y_scores_dfs).getD i []).getD j 0
              = if tau ≤ |(y_scores_dfs.getD i []).getD j 0| then 1 else 0)))
    ∧ ((DoubleThresholdMethod.predict_from_scores_dfs (.fin tneg) (.fin tpos) y_scores_dfs).length
        = y_scores_dfs.length
      ∧ ∀ i j : ℕ,
        ((DoubleThresholdMethod.predict_from_scores_dfs (.fin tneg) (.fin tpos) y_scores_dfs).getD i []).length
          = (y_scores_dfs.getD i []).length
        ∧ (j < (y_scores_dfs.getD i []).length →
            (((DoubleThresholdMethod.predict_from_scores_dfs (.fin tneg) (.fin tpos) y_scores_dfs).getD i []).getD j 0
              = if (y_scores_dfs.getD i []).getD j 0 < tneg ∨ tpos ≤ (y_scores_dfs.getD i []).getD j 0
                then 1 else 0))) := by
  refine ⟨⟨List.length_map _ _, fun i j => ?_⟩, ⟨List.length_map _ _, fun i j => ?_⟩⟩
  · have hmap := getD_map_frames
      (fun score => score.map (fun s => if (EVal.fin |s|).geb (.fin tau) then (1 : ℚ) else 0))
      rfl y_scores_dfs i
    rw [StormPhase2.SingleThresholdMethod.predict_from_scores_dfs, hmap]
    refine ⟨List.length_map _ _, fun hj => ?_⟩
    rw [getD_map_of_lt _ _ hj 0 0, EVal.geb, EVal.leb_fin_fin]
    simp [decide_eq_true_eq]
  · have hmap := getD_map_frames
      (fun score => score.map (fun s =>
        if (EVal.fin s).ltb (.fin tneg) || (EVal.fin s).geb (.fin tpos) then (1 : ℚ) else 0))
      rfl y_scores_dfs i
    rw [StormPhase2.DoubleThresholdMethod.predict_from_scores_dfs, hmap]
    refine ⟨List.length_map _ _, fun hj => ?_⟩
    rw [getD_map_of_lt _ _ hj 0 0, EVal.geb, EVal.leb_fin_fin, EVal.ltb_fin_fin]
    simp [decide_eq_true_eq, Bool.or_eq_true]

open StormPhase2 in
/-- C10 counterexample: on a fresh `DoubleThresholdMethod` instance,
`optimize_thresholds` with an empty label-filter list followed by
`predict_from_scores_dfs` on the finite score sequence `[[0]]` raises
`AttributeError` (the predictor reads `optimal_negative_threshold` and
`optimal_positive_threshold`, which the empty branch never sets) instead of
labeling every sample `0`. -/
theorem C10_counterexample :
    DoubleThresholdMethod.predict_from_scores_dfs_st
        (DoubleThresholdMethod.optimize_thresholds DoubleThresholdMethod.freshState
          [] [] [] [] 1 1000) [[0]]
      = Except.error .attributeError
    ∧ DoubleThresholdMethod.predict_from_scores_dfs_st
        (DoubleThresholdMethod.optimize_thresholds DoubleThresholdMethod.freshState
          [] [] [] [] 1 1000) [[0]]
      ≠ Except.ok [[0]] := by
  have h : DoubleThresholdMethod.predict_from_scores_dfs_st
      (DoubleThresholdMethod.optimize_thresholds DoubleThresholdMethod.freshState
        [] [] [] [] 1 1000) [[0]]
      = Except.error .attributeError := rfl
  exact ⟨h, by rw [h]; exact fun hc => Except.noConfusion hc⟩

open StormPhase2 in
/-- C10 (amended): with an empty label-filter list, the single-threshold
variant sets `optimal_threshold = +inf` and then predicts `0` for every sample
of every finite score sequence; the double-threshold variant sets only the
attribute `optimal_threshold = (-inf, +inf)` — its predictor instead reads
`optimal_negative_threshold` / `optimal_positive_threshold`, which remain
unset on a fresh instance, so prediction raises `AttributeError` rather than
returning all-zero labels. -/
theorem C10_empty_filters_amended (y_dfs y_scores_dfs : List (List ℚ)) (used : List ℕ)
    (beta : ℚ) (interpLen : ℕ) (scores : List (List ℚ)) :
    (SingleThresholdMethod.optimize_thresholds SingleThresholdMethod.freshState
        y_dfs y_scores_dfs [] used beta interpLen).optimal_threshold = some .posInf
    ∧ SingleThresholdMethod.predict_from_scores_dfs_st
        (SingleThresholdMethod.optimize_thresholds SingleThresholdMethod.freshState
          y_dfs y_scores_dfs [] used beta interpLen) scores
      = .ok (scores.map (fun frame => frame.map (fun _ => 0)))
    ∧ (DoubleThresholdMethod.optimize_thresholds DoubleThresholdMethod.freshState
        y_dfs y_scores_dfs [] used beta interpLen).optimal_threshold
      = some (.negInf, .posInf)
    ∧ DoubleThresholdMethod.predict_from_scores_dfs_st
        (DoubleThresholdMethod.optimize_thresholds DoubleThresholdMethod.freshState
          y_dfs y_scores_dfs [] used beta interpLen) scores
      = .error .attributeError := by
  refine ⟨rfl, ?_, rfl, rfl⟩
  simp [SingleThresholdMethod.optimize_thresholds,
    SingleThresholdMethod.predict_from_scores_dfs_st,
    SingleThresholdMethod.predict_from_scores_dfs, EVal.geb, EVal.leb]

open StormPhase2 in
/-- C4 counterexample: on the non-empty batch with labels `[1, 1]`, scores
`[1, 5]`, one cutoff bucket filtering out nothing, β = 1 and interpolation
grid length 5, the single-threshold optimizer sets `optimal_threshold = 0`,
while every observed absolute score is at least `1` — so the optimal threshold
does not lie within the observed absolute-score range `[1, 5]`. -/
theorem C4_counterexample :
    (SingleThresholdMethod.optimize_thresholds SingleThresholdMethod.freshState
        [[1, 1]] [[1, 5]] [[[false, false]]] [0] 1 5).optimal_threshold
      = some (.fin 0)
    ∧ ∀ s ∈ ([[1, 5]] : List (List ℚ)).flatten, 1 ≤ |s| := by
  constructor
  · norm_num [SingleThresholdMethod.optimize_thresholds,
      SingleThresholdMethod.calcInterpolatedRecallPrecision,
      SingleThresholdMethod.calculate_and_set_thresholds,
      precision_recall_curve, binary_clf_curve, sortByScoreDesc, insertByScoreDesc,
      clfCurveAux, filter_label_and_scores_to_array, linspace, listMin, listMax,
      interp1, f_beta, argmax, argmaxAux, List.range_succ, List.findIdx_cons]
  · norm_num

namespace StormPhase2

lemma getD_map_range {α : Type} (f : ℕ → α) {n i : ℕ} (hi : i < n) (d : α) :
    ((List.range n).map f).getD i d = f i := by
  rw [List.getD_eq_getElem?_getD, List.getElem?_map, List.getElem?_range hi]
  rfl

lemma logicalOrQ_length (x y : List ℚ) :
    (StackEnsemble.logicalOrQ x y).length = min x.length y.length :=
  List.length_zipWith _ _ _

lemma logicalOrQ_getD {x y : List ℚ} {n j : ℕ} (hx : x.length = n) (hy : y.length = n)
    (hj : j < n) :
    (StackEnsemble.logicalOrQ x y).getD j 0
      = if x.getD j 0 ≠ 0 ∨ y.getD j 0 ≠ 0 then 1 else 0 := by
  have hjx : j < x.length := hx ▸ hj
  have hjy : j < y.length := hy ▸ hj
  have hjz : j < (StackEnsemble.logicalOrQ x y).length := by
    rw [logicalOrQ_length, hx, hy, min_self]
    exact hj
  rw [List.getD_eq_getElem?_getD, List.getElem?_eq_getElem hjz,
    List.getD_eq_getElem?_getD, List.getElem?_eq_getElem hjx,
    List.getD_eq_getElem?_getD, List.getElem?_eq_getElem hjy]
  simp only [Option.getD_some]
  exact List.getElem_zipWith

lemma foldl_logicalOrQ_spec (n : ℕ) :
    ∀ (rest : List (List ℚ)) (x : List ℚ), x.length = n →
      (∀ m ∈ rest, m.length = n) →
      (∀ j, j < n → (x.getD j 0 = 0 ∨ x.getD j 0 = 1)) →
      (∀ m ∈ rest, ∀ j, j < n → (m.getD j 0 = 0 ∨ m.getD j 0 = 1)) →
      (rest.foldl StackEnsemble.logicalOrQ x).length = n
      ∧ ∀ j, j < n →
        ((rest.foldl StackEnsemble.logicalOrQ x).getD j 0 = 1
          ↔ (x.getD j 0 = 1 ∨ ∃ m ∈ rest, m.getD j 0 = 1)) := by
  intro rest
  induction rest with
  | nil =>
    intro x hx _ _ _
    refine ⟨hx, fun j hj => ?_⟩
    simp
  | cons y rest2 ih =>
    intro x hx hlen hxb hbin
    have hy : y.length = n := hlen y (List.mem_cons_self _ _)
    have hxy : (StackEnsemble.logicalOrQ x y).length = n := by
      rw [logicalOrQ_length, hx, hy, min_self]
    have hxyb : ∀ j, j < n →
        ((StackEnsemble.logicalOrQ x y).getD j 0 = 0
          ∨ (StackEnsemble.logicalOrQ x y).getD j 0 = 1) := by
      intro j hj
      rw [logicalOrQ_getD hx hy hj]
      by_cases h : x.getD j 0 ≠ 0 ∨ y.getD j 0 ≠ 0
      · rw [if_pos h]; exact Or.inr rfl
      · rw [if_neg h]; exact Or.inl rfl
    obtain ⟨hL, hS⟩ := ih (StackEnsemble.logicalOrQ x y) hxy
      (fun m hm => hlen m (List.mem_cons_of_mem _ hm)) hxyb
      (fun m hm => hbin m (List.mem_cons_of_mem _ hm))
    refine ⟨hL, fun j hj => ?_⟩
    rw [List.foldl_cons, hS j hj, logicalOrQ_getD hx hy hj]
    constructor
    · rintro (h1 | h2)
      · by_cases hc : x.getD j 0 ≠ 0 ∨ y.getD j 0 ≠ 0
        · rcases hc with hcx | hcy
          · rcases hxb j hj with h0 | h0
            · exact absurd h0 hcx
            · exact Or.inl h0
          · rcases hbin y (List.mem_cons_self _ _) j hj with h0 | h0
            · exact absurd h0 hcy
            · exact Or.inr ⟨y, List.mem_cons_self _ _, h0⟩
        · rw [if_neg hc] at h1
          exact absurd h1 (by norm_num)
      · rcases h2 with ⟨m, hm, hm1⟩
        exact Or.inr ⟨m, List.mem_cons_of_mem _ hm, hm1⟩
    · rintro (hx1 | ⟨m, hm, hm1⟩)
      · left
        rw [if_pos (Or.inl (by rw [hx1]; norm_num))]
      · rcases List.mem_cons.mp hm with rfl | hm2
        · left
          rw [if_pos (Or.inr (by rw [hm1]; norm_num))]
        · exact Or.inr ⟨m, hm2, hm1⟩

lemma flatten_getD_offset {α : Type} (d : α) :
    ∀ (L : List (List α)) (k c : ℕ), k < L.length → c < (L.getD k []).length →
      L.flatten.getD (((L.take k).map List.length).sum + c) d
        = (L.getD k []).getD c d := by
  intro L
  induction L with
  | nil =>
    intro k c hk
    exact absurd hk (Nat.not_lt_zero k)
  | cons l0 L2 ih =>
    intro k c hk hc
    cases k with
    | zero =>
      simp only [List.take_zero, List.map_nil, List.sum_nil, Nat.zero_add,
        List.getD_cons_zero] at hc ⊢
      rw [List.flatten_cons, List.getD_eq_getElem?_getD, List.getElem?_append_left hc,
        ← List.getD_eq_getElem?_getD]
    | succ k2 =>
      have hk2 : k2 < L2.length := Nat.lt_of_succ_lt_succ hk
      simp only [List.take_succ_cons, List.map_cons, List.sum_cons,
        List.getD_cons_succ] at hc ⊢
      have harr : l0.length + ((L2.take k2).map List.length).sum + c
          = l0.length + (((L2.take k2).map List.length).sum + c) := by omega
      rw [harr, List.flatten_cons, List.getD_eq_getElem?_getD,
        List.getElem?_append_right (Nat.le_add_right _ _), Nat.add_sub_cancel_left,
        ← List.getD_eq_getElem?_getD]
      exact ih k2 c hk2 hc

end StormPhase2

open StormPhase2 in
/-- C9: for a `StackEnsemble` over a non-empty model list, the combined
prediction of station `i` at sample `j` is `1` exactly when at least one
sub-engine predicts `1` there (given that sub-engine predictions are 0/1
valued and station-aligned), and the combined score frame of station `i` is
the column-wise concatenation of the sub-engines' score frames in engine
order: column `c` of engine `k` reappears at column offset
`(number of columns contributed by engines before k) + c`. -/
theorem C9_stack_ensemble (m0 : List (List ℚ)) (ms : List (List (List ℚ)))
    (scores_list : List (List (List (List ℚ))))
    (hst : ∀ m ∈ m0 :: ms, m.length = m0.length)
    (hlen : ∀ m ∈ m0 :: ms, ∀ i : ℕ, (m.getD i []).length = (m0.getD i []).length)
    (hbin : ∀ m ∈ m0 :: ms, ∀ i j : ℕ, j < (m0.getD i []).length →
      ((m.getD i []).getD j 0 = 0 ∨ (m.getD i []).getD j 0 = 1)) :
    (StackEnsemble.combine_predictions (m0 :: ms)).length = m0.length
    ∧ (∀ i j : ℕ, i < m0.length → j < (m0.getD i []).length →
        (((StackEnsemble.combine_predictions (m0 :: ms)).getD i []).getD j 0 = 1
          ↔ ∃ m ∈ m0 :: ms, (m.getD i []).getD j 0 = 1))
    ∧ (∀ k i c : ℕ, k < scores_list.length → i < (scores_list.headD []).length →
        c < ((scores_list.getD k []).getD i []).length →
        ((StackEnsemble.combine_scores scores_list).getD i []).getD
            ((((scores_list.map (fun dfs => dfs.getD i [])).take k).map List.length).sum + c) []
          = ((scores_list.getD k []).getD i []).getD c []) := by
  refine ⟨?_, ?_, ?_⟩
  · rw [StackEnsemble.combine_predictions]
    simp only [List.headD_cons]
    rw [List.length_map, List.length_range]
  · intro i j hi hj
    have hgot : (StackEnsemble.combine_predictions (m0 :: ms)).getD i []
        = StackEnsemble.logicalOrReduce ((m0 :: ms).map (fun dfs => dfs.getD i [])) := by
      rw [StackEnsemble.combine_predictions]
      simp only [List.headD_cons]
      exact getD_map_range _ hi []
    rw [hgot, List.map_cons, StackEnsemble.logicalOrReduce]
    obtain ⟨_, hS⟩ := foldl_logicalOrQ_spec ((m0.getD i []).length)
      (ms.map (fun dfs => dfs.getD i [])) (m0.getD i []) rfl
      (by
        intro m hm
        rcases List.mem_map.mp hm with ⟨dfs, hdfs, rfl⟩
        exact hlen dfs (List.mem_cons_of_mem _ hdfs) i)
      (fun j hj => hbin m0 (List.mem_cons_self _ _) i j hj)
      (by
        intro m hm j hj
        rcases List.mem_map.mp hm with ⟨dfs, hdfs, rfl⟩
        exact hbin dfs (List.mem_cons_of_mem _ hdfs) i j hj)
    rw [hS j hj]
    constructor
    · rintro (h0 | ⟨m, hm, hm1⟩)
      · exact ⟨m0, List.mem_cons_self _ _, h0⟩
      · rcases List.mem_map.mp hm with ⟨dfs, hdfs, rfl⟩
        exact ⟨dfs, List.mem_cons_of_mem _ hdfs, hm1⟩
    · rintro ⟨m, hm, hm1⟩
      rcases List.mem_cons.mp hm with rfl | hm2
      · exact Or.inl hm1
      · exact Or.inr ⟨m.getD i [], List.mem_map.mpr ⟨m, hm2, rfl⟩, hm1⟩
  · intro k i c hk hi hc
    have hgot : (StackEnsemble.combine_scores scores_list).getD i []
        = (scores_list.map (fun dfs => dfs.getD i [])).flatten := by
      rw [StackEnsemble.combine_scores]
      exact getD_map_range _ hi []
    have hkL : k < (scores_list.map (fun dfs => dfs.getD i [])).length := by
      rw [List.length_map]; exact hk
    have hmapk : (scores_list.map (fun dfs => dfs.getD i [])).getD k []
        = (scores_list.getD k []).getD i [] := getD_map_of_lt _ _ hk [] []
    rw [hgot]
    have := flatten_getD_offset ([] : List ℚ)
      (scores_list.map (fun dfs => dfs.getD i [])) k c hkL (by rw [hmapk]; exact hc)
    rw [this, hmapk]

open StormPhase2 in
/-- Witness for C9: two engines predicting `[[0]]` and `[[1]]` over one
station with one sample, with score frames of one and two columns. -/
theorem C9_stack_ensemble_witness :
    (StackEnsemble.combine_predictions [[[0]], [[1]]]).length = 1
    ∧ (((StackEnsemble.combine_predictions [[[0]], [[1]]]).getD 0 []).getD 0 0 = 1
        ↔ ∃ m ∈ ([[[0]], [[1]]] : List (List (List ℚ))), (m.getD 0 []).getD 0 0 = 1) := by
  have h := C9_stack_ensemble [[0]] [[[1]]] [[[[1]]], [[[2], [3]]]]
    (by
      intro m hm
      fin_cases hm <;> rfl)
    (by
      intro m hm i
      fin_cases hm <;> cases i <;> rfl)
    (by
      intro m hm i j hj
      cases i with
      | zero =>
        cases j with
        | zero =>
          fin_cases hm
          · exact Or.inl rfl
          · exact Or.inr rfl
        | succ jj =>
          have hlen1 : (([[(0 : ℚ)]] : List (List ℚ)).getD 0 []).length = 1 := rfl
          rw [hlen1] at hj
          omega
      | succ ii =>
        have hlen0 : (([[(0 : ℚ)]] : List (List ℚ)).getD (ii + 1) []).length = 0 := rfl
        rw [hlen0] at hj
        exact absurd hj (Nat.not_lt_zero j))
  exact ⟨h.1, h.2.1 0 0 (by decide) (by decide)⟩

namespace StormPhase2

lemma getD_zipWith_or {f g : List Bool} {n i : ℕ} (hf : f.length = n) (hg : g.length = n)
    (hi : i < n) :
    (List.zipWith or f g).getD i false = ((f.getD i false) || (g.getD i false)) := by
  have hif : i < f.length := hf ▸ hi
  have hig : i < g.length := hg ▸ hi
  have hiz : i < (List.zipWith or f g).length := by
    rw [List.length_zipWith, hf, hg, min_self]
    exact hi
  rw [List.getD_eq_getElem?_getD, List.getElem?_eq_getElem hiz,
    List.getD_eq_getElem?_getD, List.getElem?_eq_getElem hif,
    List.getD_eq_getElem?_getD, List.getElem?_eq_getElem hig]
  simp only [Option.getD_some]
  exact List.getElem_zipWith

lemma orReduceBool_length (fs : List (List Bool)) (n : ℕ)
    (hlen : ∀ f ∈ fs, f.length = n) : (orReduceBool fs n).length = n := by
  induction fs with
  | nil => exact List.length_replicate n false
  | cons f fs2 ih =>
    have h1 : orReduceBool (f :: fs2) n = List.zipWith or f (orReduceBool fs2 n) := rfl
    rw [h1, List.length_zipWith, hlen f (List.mem_cons_self _ _),
      ih (fun g hg => hlen g (List.mem_cons_of_mem _ hg)), min_self]

lemma orReduceBool_getD (fs : List (List Bool)) {n i : ℕ} (hi : i < n)
    (hlen : ∀ f ∈ fs, f.length = n) :
    (orReduceBool fs n).getD i false = fs.any (fun f => f.getD i false) := by
  induction fs with
  | nil =>
    have h1 : orReduceBool [] n = List.replicate n false := rfl
    rw [h1, List.getD_eq_getElem?_getD, List.getElem?_replicate, if_pos hi]
    rfl
  | cons f fs2 ih =>
    have h1 : orReduceBool (f :: fs2) n = List.zipWith or f (orReduceBool fs2 n) := rfl
    have hlen2 : ∀ g ∈ fs2, g.length = n := fun g hg => hlen g (List.mem_cons_of_mem _ hg)
    rw [h1, getD_zipWith_or (hlen f (List.mem_cons_self _ _)) (orReduceBool_length fs2 n hlen2) hi,
      ih hlen2, List.any_cons]

/-- Pointwise characterization of `get_label_filters_for_all_cutoffs`: the
bucket-`k` mask at sample `i` is set exactly when the label is an uncertain
code, or the event length falls (strictly above `lo`, at or below `hi`) into
some cutoff other than bucket `k`'s, or — with `remove_missing` — the missing
flag is nonzero. -/
lemma label_filters_getD_iff (y lengths : List ℚ) (all_cutoffs : List Cutoff)
    (remove_missing : Bool) (missing : List ℚ) (uncertain_codes : List ℚ)
    {k i : ℕ} (hlen : lengths.length = y.length) (hmiss : missing.length = y.length)
    (hk : k < all_cutoffs.length) (hi : i < y.length) :
    (((get_label_filters_for_all_cutoffs y lengths all_cutoffs remove_missing missing
        uncertain_codes).getD k []).getD i false = true)
      ↔ (y.getD i 0 ∈ uncertain_codes
        ∨ (∃ c ∈ all_cutoffs, c ≠ all_cutoffs.getD k ⟨.posInf, .posInf⟩
            ∧ c.lo.ltb (.fin (lengths.getD i 0)) = true
            ∧ (EVal.fin (lengths.getD i 0)).leb c.hi = true)
        ∨ (remove_missing = true ∧ missing.getD i 0 ≠ 0)) := by
  have hil : i < lengths.length := hlen ▸ hi
  set ck := all_cutoffs.getD k ⟨.posInf, .posInf⟩ with hck
  set uncertain := y.map (fun v => decide (v ∈ uncertain_codes)) with hunc
  set partialFor := fun (c : Cutoff) =>
    lengths.map (fun L => c.lo.ltb (.fin L) && (EVal.fin L).leb c.hi) with hpf
  set others := all_cutoffs.filter (fun c2 => c2 ≠ ck) with hoth
  set length_filter := orReduceBool (others.map partialFor) lengths.length with hlf
  have houter : (get_label_filters_for_all_cutoffs y lengths all_cutoffs remove_missing missing
      uncertain_codes).getD k []
      = (if remove_missing then
          orReduceBool [uncertain, length_filter,
            missing.map (fun m => decide (m ≠ 0))] y.length
        else List.zipWith or uncertain length_filter) := by
    rw [get_label_filters_for_all_cutoffs]
    exact getD_map_of_lt _ _ hk [] ⟨.posInf, .posInf⟩
  have hunclen : uncertain.length = y.length := List.length_map _ _
  have hpflen : ∀ f ∈ others.map partialFor, f.length = lengths.length := by
    intro f hf
    rcases List.mem_map.mp hf with ⟨c, _, rfl⟩
    exact List.length_map _ _
  have hlflen : length_filter.length = y.length := by
    rw [hlf, orReduceBool_length _ _ hpflen, hlen]
  have huncD : uncertain.getD i false = decide (y.getD i 0 ∈ uncertain_codes) := by
    rw [hunc]
    exact getD_map_of_lt _ _ hi false 0
  have hlfD : (length_filter.getD i false = true)
      ↔ ∃ c ∈ all_cutoffs, c ≠ ck
          ∧ c.lo.ltb (.fin (lengths.getD i 0)) = true
          ∧ (EVal.fin (lengths.getD i 0)).leb c.hi = true := by
    have hpc : ∀ c : Cutoff, (partialFor c).getD i false
        = (c.lo.ltb (.fin (lengths.getD i 0)) && (EVal.fin (lengths.getD i 0)).leb c.hi) := by
      intro c
      rw [hpf]
      exact getD_map_of_lt _ _ hil false 0
    rw [hlf, orReduceBool_getD _ hil hpflen, List.any_eq_true]
    constructor
    · rintro ⟨f, hf, hcv⟩
      rcases List.mem_map.mp hf with ⟨c, hc, rfl⟩
      have hcmem := List.mem_filter.mp hc
      rw [hpc c, Bool.and_eq_true] at hcv
      exact ⟨c, hcmem.1, of_decide_eq_true hcmem.2, hcv.1, hcv.2⟩
    · rintro ⟨c, hc, hne, h1, h2⟩
      refine ⟨partialFor c,
        List.mem_map.mpr ⟨c, List.mem_filter.mpr ⟨hc, decide_eq_true hne⟩, rfl⟩, ?_⟩
      rw [hpc c, Bool.and_eq_true]
      exact ⟨h1, h2⟩
  rw [houter]
  cases remove_missing with
  | false =>
    rw [if_neg (by simp)]
    rw [getD_zipWith_or hunclen hlflen hi, Bool.or_eq_true, huncD]
    simp only [decide_eq_true_eq]
    rw [hlfD]
    constructor
    · rintro (h | h)
      · exact Or.inl h
      · exact Or.inr (Or.inl h)
    · rintro (h | h | ⟨hfalse, _⟩)
      · exact Or.inl h
      · exact Or.inr h
      · exact absurd hfalse (by simp)
  | true =>
    rw [if_pos rfl]
    have hmlen : (missing.map (fun m => decide (m ≠ 0))).length = y.length := by
      rw [List.length_map, hmiss]
    rw [orReduceBool_getD _ hi (by
      intro f hf
      rcases List.mem_cons.mp hf with rfl | hf
      · exact hunclen
      rcases List.mem_cons.mp hf with rfl | hf
      · exact hlflen
      rcases List.mem_cons.mp hf with rfl | hf
      · exact hmlen
      · cases hf)]
    simp only [List.any_cons, List.any_nil, Bool.or_false, Bool.or_eq_true, huncD]
    have hmD : (missing.map (fun m => decide (m ≠ 0))).getD i false
        = decide (missing.getD i 0 ≠ 0) := by
      have him : i < missing.length := hmiss ▸ hi
      exact getD_map_of_lt _ _ him false 0
    rw [hmD]
    simp only [decide_eq_true_eq]
    rw [hlfD]
    constructor
    · rintro (h | h | h)
      · exact Or.inl h
      · exact Or.inr (Or.inl h)
      · exact Or.inr (Or.inr (And.intro trivial h))
    · rintro (h | h | hpair)
      · exact Or.inl h
      · exact Or.inr (Or.inl h)
      · exact Or.inr (Or.inr hpair.2)

end StormPhase2

open StormPhase2 in
/-- C3 counterexample: with cutoffs `[(0, 24], (24, inf)]`, a normal sample
(label 0) of event length 0 gets filter value `false` in bucket `(0, 24]` —
it is not excluded from every bucket; its length falls into no bucket, so no
"other bucket" partial filter fires (and neither does the uncertain mask). -/
theorem C3_counterexample :
    (([(0 : ℚ)] : List ℚ).length = 1)
    ∧ (((get_label_filters_for_all_cutoffs [0] [0]
          [⟨.fin 0, .fin 24⟩, ⟨.fin 24, .posInf⟩] false [0] [5]).getD 0 []).getD 0 false
        = false) := by
  constructor
  · rfl
  · norm_num [get_label_filters_for_all_cutoffs, orReduceBool, EVal.ltb, EVal.leb]

open StormPhase2 in
/-- C3 (amended): a sample is excluded from bucket `k` (filter value `true`)
exactly when its event length falls into some cutoff other than bucket `k`'s
— strictly above the lower cutoff, at or below the upper — or its label is an
uncertain code, or, with `remove_missing` set, its missing flag is nonzero;
consequently a sample of event length 0 (when every lower cutoff is
nonnegative, its label is not uncertain and it is not flagged missing) is
excluded from no bucket at all. -/
theorem C3_label_filters_amended (y lengths : List ℚ) (all_cutoffs : List Cutoff)
    (remove_missing : Bool) (missing : List ℚ) (uncertain_codes : List ℚ) (k i : ℕ)
    (hlen : lengths.length = y.length) (hmiss : missing.length = y.length)
    (hk : k < all_cutoffs.length) (hi : i < y.length) :
    ((((get_label_filters_for_all_cutoffs y lengths all_cutoffs remove_missing missing
          uncertain_codes).getD k []).getD i false = true)
      ↔ (y.getD i 0 ∈ uncertain_codes
        ∨ (∃ c ∈ all_cutoffs, c ≠ all_cutoffs.getD k ⟨.posInf, .posInf⟩
            ∧ inBucket c (lengths.getD i 0) = true)
        ∨ (remove_missing = true ∧ missing.getD i 0 ≠ 0)))
    ∧ (lengths.getD i 0 = 0 →
        (∀ c ∈ all_cutoffs, c.lo.ltb (.fin 0) = false) →
        y.getD i 0 ∉ uncertain_codes →
        (remove_missing = true → missing.getD i 0 = 0) →
        ((get_label_filters_for_all_cutoffs y lengths all_cutoffs remove_missing missing
          uncertain_codes).getD k []).getD i false = false) := by
  have hchar := label_filters_getD_iff y lengths all_cutoffs remove_missing missing
    uncertain_codes hlen hmiss hk hi
  have hchar2 : (((get_label_filters_for_all_cutoffs y lengths all_cutoffs remove_missing
      missing uncertain_codes).getD k []).getD i false = true)
      ↔ (y.getD i 0 ∈ uncertain_codes
        ∨ (∃ c ∈ all_cutoffs, c ≠ all_cutoffs.getD k ⟨.posInf, .posInf⟩
            ∧ inBucket c (lengths.getD i 0) = true)
        ∨ (remove_missing = true ∧ missing.getD i 0 ≠ 0)) := by
    rw [hchar]
    simp only [inBucket, Bool.and_eq_true]
  refine ⟨hchar2, ?_⟩
  intro hzero hlo hunc hmz
  cases hval : ((get_label_filters_for_all_cutoffs y lengths all_cutoffs remove_missing missing
      uncertain_codes).getD k []).getD i false with
  | false => rfl
  | true =>
    rcases hchar2.mp hval with h | ⟨c, hc, _, hin⟩ | ⟨hrm, hne⟩
    · exact absurd h hunc
    · rw [inBucket, hzero, Bool.and_eq_true] at hin
      exact absurd hin.1 (by rw [hlo c hc]; exact Bool.false_ne_true)
    · exact absurd (hmz hrm) hne

open StormPhase2 in
/-- Witness for C3 at cutoffs `[(0, 24], (24, inf)]`, labels `[5, 0]`,
lengths `[3, 0]`, bucket 0, sample 0. -/
theorem C3_label_filters_witness :
    (([(3 : ℚ), 0] : List ℚ).length = ([(5 : ℚ), 0] : List ℚ).length)
    ∧ (([(0 : ℚ), 0] : List ℚ).length = ([(5 : ℚ), 0] : List ℚ).length)
    ∧ 0 < ([⟨.fin 0, .fin 24⟩, ⟨.fin 24, .posInf⟩] : List Cutoff).length
    ∧ 0 < ([(5 : ℚ), 0] : List ℚ).length
    ∧ (((((get_label_filters_for_all_cutoffs [5, 0] [3, 0]
          [⟨.fin 0, .fin 24⟩, ⟨.fin 24, .posInf⟩] false [0, 0] [5]).getD 0 []).getD 0 false = true)
        ↔ (((5 : ℚ)) ∈ ([(5 : ℚ)] : List ℚ)
          ∨ (∃ c ∈ ([⟨.fin 0, .fin 24⟩, ⟨.fin 24, .posInf⟩] : List Cutoff),
              c ≠ ([⟨.fin 0, .fin 24⟩, ⟨.fin 24, .posInf⟩] : List Cutoff).getD 0 ⟨.posInf, .posInf⟩
              ∧ inBucket c (([(3 : ℚ), 0] : List ℚ).getD 0 0) = true)
          ∨ (false = true ∧ ([(0 : ℚ), 0] : List ℚ).getD 0 0 ≠ 0)))) := by
  refine ⟨rfl, rfl, by decide, by decide, ?_⟩
  have h := C3_label_filters_amended [5, 0] [3, 0]
    [⟨.fin 0, .fin 24⟩, ⟨.fin 24, .posInf⟩] false [0, 0] [5] 0 0
    rfl rfl (by decide) (by decide)
  exact h.1

open StormPhase2 in
/-- C2 counterexample: with the two buckets `[(0, 24], (24, inf)]` and a
normal (label 0) sample of event length 0, the filter value is `false` in
both buckets — so more than one bucket keeps the sample even though its
label is not 5, and the "all filters true when length is 0" clause fails. -/
theorem C2_counterexample :
    (([(0 : ℚ)] : List ℚ).getD 0 0 = 0)
    ∧ (((get_label_filters_for_all_cutoffs [0] [0]
          [⟨.fin 0, .fin 24⟩, ⟨.fin 24, .posInf⟩] false [0] [5]).getD 0 []).getD 0 false
        = false)
    ∧ (((get_label_filters_for_all_cutoffs [0] [0]
          [⟨.fin 0, .fin 24⟩, ⟨.fin 24, .posInf⟩] false [0] [5]).getD 1 []).getD 0 false
        = false) := by
  refine ⟨rfl, ?_, ?_⟩ <;>
    norm_num [get_label_filters_for_all_cutoffs, orReduceBool, EVal.ltb, EVal.leb]

open StormPhase2 in
/-- C2 (amended): with uncertain code 5 and pairwise distinct cutoffs, (a) if
the sample's event length falls into at least one cutoff then at most one
bucket has filter value `false`; (b) if the label is 5 every bucket's filter
is `true`; (c) a `false` filter in bucket `k` implies the label is not 5, the
event length falls into no cutoff other than bucket `k`'s, and the sample is
not excluded for missingness; (d) if the event length falls into no cutoff at
all and the label is not 5 (and the sample is not flagged missing under
`remove_missing`), every bucket's filter is `false`. -/
theorem C2_filter_disjointness_amended (y lengths : List ℚ) (all_cutoffs : List Cutoff)
    (remove_missing : Bool) (missing : List ℚ) (i : ℕ)
    (hnd : all_cutoffs.Nodup)
    (hlen : lengths.length = y.length) (hmiss : missing.length = y.length)
    (hi : i < y.length) :
    (∀ k1 k2 : ℕ, k1 < all_cutoffs.length → k2 < all_cutoffs.length →
      (∃ c ∈ all_cutoffs, inBucket c (lengths.getD i 0) = true) →
      ((get_label_filters_for_all_cutoffs y lengths all_cutoffs remove_missing missing
          [5]).getD k1 []).getD i false = false →
      ((get_label_filters_for_all_cutoffs y lengths all_cutoffs remove_missing missing
          [5]).getD k2 []).getD i false = false →
      k1 = k2)
    ∧ (y.getD i 0 = 5 → ∀ k : ℕ, k < all_cutoffs.length →
        ((get_label_filters_for_all_cutoffs y lengths all_cutoffs remove_missing missing
          [5]).getD k []).getD i false = true)
    ∧ (∀ k : ℕ, k < all_cutoffs.length →
        ((get_label_filters_for_all_cutoffs y lengths all_cutoffs remove_missing missing
          [5]).getD k []).getD i false = false →
        y.getD i 0 ≠ 5
        ∧ (∀ c ∈ all_cutoffs, c ≠ all_cutoffs.getD k ⟨.posInf, .posInf⟩ →
            inBucket c (lengths.getD i 0) = false)
        ∧ ¬(remove_missing = true ∧ missing.getD i 0 ≠ 0))
    ∧ ((∀ c ∈ all_cutoffs, inBucket c (lengths.getD i 0) = false) →
        y.getD i 0 ≠ 5 → (remove_missing = true → missing.getD i 0 = 0) →
        ∀ k : ℕ, k < all_cutoffs.length →
        ((get_label_filters_for_all_cutoffs y lengths all_cutoffs remove_missing missing
          [5]).getD k []).getD i false = false) := by
  have hchar : ∀ k : ℕ, k < all_cutoffs.length →
      ((((get_label_filters_for_all_cutoffs y lengths all_cutoffs remove_missing missing
          [5]).getD k []).getD i false = true)
        ↔ (y.getD i 0 ∈ ([(5 : ℚ)] : List ℚ)
          ∨ (∃ c ∈ all_cutoffs, c ≠ all_cutoffs.getD k ⟨.posInf, .posInf⟩
              ∧ inBucket c (lengths.getD i 0) = true)
          ∨ (remove_missing = true ∧ missing.getD i 0 ≠ 0))) := by
    intro k hk
    have h := label_filters_getD_iff y lengths all_cutoffs remove_missing missing
      [5] hlen hmiss hk hi
    rw [h]
    simp only [inBucket, Bool.and_eq_true]
  have hfalse : ∀ k : ℕ, k < all_cutoffs.length →
      (((get_label_filters_for_all_cutoffs y lengths all_cutoffs remove_missing missing
          [5]).getD k []).getD i false = false
        ↔ (y.getD i 0 ≠ 5
          ∧ (∀ c ∈ all_cutoffs, c ≠ all_cutoffs.getD k ⟨.posInf, .posInf⟩ →
              inBucket c (lengths.getD i 0) = false)
          ∧ ¬(remove_missing = true ∧ missing.getD i 0 ≠ 0))) := by
    intro k hk
    constructor
    · intro hv
      have hnot : ¬(((get_label_filters_for_all_cutoffs y lengths all_cutoffs remove_missing
          missing [5]).getD k []).getD i false = true) := by
        rw [hv]
        exact Bool.false_ne_true
      rw [hchar k hk] at hnot
      refine ⟨?_, ?_, ?_⟩
      · intro h5
        exact hnot (Or.inl (by simpa using h5))
      · intro c hc hne
        rcases Bool.eq_false_or_eq_true (inBucket c (lengths.getD i 0)) with h1 | h0
        · exact (hnot (Or.inr (Or.inl ⟨c, hc, hne, h1⟩))).elim
        · exact h0
      · intro hpair
        exact hnot (Or.inr (Or.inr hpair))
    · rintro ⟨h1, h2, h3⟩
      cases hval : ((get_label_filters_for_all_cutoffs y lengths all_cutoffs remove_missing
          missing [5]).getD k []).getD i false with
      | false => rfl
      | true =>
        rcases (hchar k hk).mp hval with h | ⟨c, hc, hne, hin⟩ | h
        · exact absurd (by simpa using h) h1
        · exact absurd hin (by rw [h2 c hc hne]; exact Bool.false_ne_true)
        · exact absurd h h3
  refine ⟨?_, ?_, ?_, ?_⟩
  · intro k1 k2 hk1 hk2 hin hf1 hf2
    rcases hin with ⟨c0, hc0, hc0in⟩
    have h1 := (hfalse k1 hk1).mp hf1
    have h2 := (hfalse k2 hk2).mp hf2
    have he1 : c0 = all_cutoffs.getD k1 ⟨.posInf, .posInf⟩ := by
      by_contra hne
      exact absurd hc0in (by rw [h1.2.1 c0 hc0 hne]; exact Bool.false_ne_true)
    have he2 : c0 = all_cutoffs.getD k2 ⟨.posInf, .posInf⟩ := by
      by_contra hne
      exact absurd hc0in (by rw [h2.2.1 c0 hc0 hne]; exact Bool.false_ne_true)
    have hgg : all_cutoffs.get ⟨k1, hk1⟩ = all_cutoffs.get ⟨k2, hk2⟩ := by
      have e1 : all_cutoffs.getD k1 ⟨.posInf, .posInf⟩ = all_cutoffs.get ⟨k1, hk1⟩ := by
        rw [List.getD_eq_getElem?_getD, List.getElem?_eq_getElem hk1]
        rfl
      have e2 : all_cutoffs.getD k2 ⟨.posInf, .posInf⟩ = all_cutoffs.get ⟨k2, hk2⟩ := by
        rw [List.getD_eq_getElem?_getD, List.getElem?_eq_getElem hk2]
        rfl
      rw [← e1, ← e2, ← he1, ← he2]
    have := (List.Nodup.get_inj_iff hnd).mp hgg
    exact congrArg Fin.val this
  · intro h5 k hk
    rw [hchar k hk]
    exact Or.inl (by simpa using h5)
  · intro k hk hv
    exact (hfalse k hk).mp hv
  · intro hnone h5 hm k hk
    rw [hfalse k hk]
    refine ⟨h5, fun c hc _ => hnone c hc, ?_⟩
    rintro ⟨hrm, hne⟩
    exact hne (hm hrm)

open StormPhase2 in
/-- Witness for C2 at cutoffs `[(0, 24], (24, inf)]`, labels `[5, 1]`,
lengths `[3, 30]`, sample 0 (whose label is the uncertain code 5). -/
theorem C2_filter_disjointness_witness :
    ([⟨.fin 0, .fin 24⟩, ⟨.fin 24, .posInf⟩] : List Cutoff).Nodup
    ∧ (([(3 : ℚ), 30] : List ℚ).length = ([(5 : ℚ), 1] : List ℚ).length)
    ∧ (([(0 : ℚ), 0] : List ℚ).length = ([(5 : ℚ), 1] : List ℚ).length)
    ∧ 0 < ([(5 : ℚ), 1] : List ℚ).length
    ∧ (([(5 : ℚ), 1] : List ℚ).getD 0 0 = 5 → ∀ k : ℕ,
        k < ([⟨.fin 0, .fin 24⟩, ⟨.fin 24, .posInf⟩] : List Cutoff).length →
        ((get_label_filters_for_all_cutoffs [5, 1] [3, 30]
          [⟨.fin 0, .fin 24⟩, ⟨.fin 24, .posInf⟩] false [0, 0]
          [5]).getD k []).getD 0 false = true) := by
  refine ⟨by decide, rfl, rfl, by decide, ?_⟩
  exact (C2_filter_disjointness_amended [5, 1] [3, 30]
    [⟨.fin 0, .fin 24⟩, ⟨.fin 24, .posInf⟩] false [0, 0] 0
    (by decide) rfl rfl (by decide)).2.1

namespace StormPhase2

lemma writeRange_length (l : List ℕ) (a b v : ℕ) :
    (writeRange l a b v).length = l.length := List.length_mapIdx

lemma writeRange_getD (l : List ℕ) (a b v : ℕ) {j : ℕ} (hj : j < l.length) :
    (writeRange l a b v).getD j 0 = if a ≤ j ∧ j < b then v else l.getD j 0 := by
  have hj2 : j < (writeRange l a b v).length := by
    rw [writeRange_length]
    exact hj
  have e1 : (writeRange l a b v).getD j 0 = (writeRange l a b v).get ⟨j, hj2⟩ := by
    rw [List.getD_eq_getElem?_getD, List.getElem?_eq_getElem hj2]
    rfl
  have e2 : l.getD j 0 = l.get ⟨j, hj⟩ := by
    rw [List.getD_eq_getElem?_getD, List.getElem?_eq_getElem hj]
    rfl
  rw [e1, e2]
  exact List.get_mapIdx l _ j hj

end StormPhase2

namespace StormPhase2

lemma runStart_zero (y : List ℚ) : runStart y 0 = 0 := rfl

lemma runStart_eq_of_run {y : List ℚ} {s k : ℕ}
    (hrun : ∀ t, s ≤ t → t < k → y.getD t 0 = 1)
    (hb : s = 0 ∨ y.getD (s - 1) 0 ≠ 1) :
    ∀ j, s ≤ j → j < k → runStart y j = s := by
  intro j
  induction j with
  | zero =>
    intro hsj _
    have hs0 : s = 0 := Nat.le_zero.mp hsj
    rw [hs0]
    exact runStart_zero y
  | succ j ih =>
    intro hsj hjk
    rcases Nat.eq_or_lt_of_le hsj with he | hlt
    · have hb2 : y.getD j 0 ≠ 1 := by
        rcases hb with h0 | hne
        · exact absurd (h0 ▸ he) (Nat.succ_ne_zero j).symm
        · have hsub : s - 1 = j := by omega
          rw [← hsub]
          exact hne
      rw [runStart, if_neg hb2]
      exact he.symm
    · have hsj2 : s ≤ j := Nat.lt_succ_iff.mp hlt
      have hjk2 : j < k := Nat.lt_of_succ_lt hjk
      rw [runStart, if_pos (hrun j hsj2 hjk2)]
      exact ih hsj2 hjk2

lemma onesFrom_drop_eq {y : List ℚ} {k : ℕ} (hk : k ≤ y.length)
    (hend : y.getD k 0 ≠ 1) :
    ∀ d j, k - j = d → j ≤ k → (∀ t, j ≤ t → t < k → y.getD t 0 = 1) →
      onesFrom (y.drop j) = k - j := by
  intro d
  induction d with
  | zero =>
    intro j hd hjk _
    have hjk2 : j = k := by omega
    subst hjk2
    rw [Nat.sub_self]
    cases hdrop : y.drop j with
    | nil => rfl
    | cons a r =>
      have hjlen : j < y.length := by
        by_contra hge
        rw [List.drop_eq_nil_of_le (Nat.le_of_not_lt hge)] at hdrop
        exact List.noConfusion hdrop
      have hd2 : y.drop j = y[j] :: y.drop (j + 1) := List.drop_eq_getElem_cons hjlen
      rw [hdrop] at hd2
      have ha : a = y.getD j 0 := by
        have := (List.cons.injEq _ _ _ _).mp hd2
        rw [this.1, List.getD_eq_getElem?_getD, List.getElem?_eq_getElem hjlen]
        rfl
      rw [onesFrom, if_neg (by rw [ha]; exact hend)]
  | succ d ih =>
    intro j hd hjk hrun
    have hjlt : j < k := by omega
    have hjlen : j < y.length := lt_of_lt_of_le hjlt hk
    have hdrop : y.drop j = y.getD j 0 :: y.drop (j + 1) := by
      rw [List.drop_eq_getElem_cons hjlen, List.getD_eq_getElem?_getD,
        List.getElem?_eq_getElem hjlen]
      rfl
    rw [hdrop, onesFrom, if_pos (hrun j (le_refl j) hjlt)]
    have hrec := ih (j + 1) (by omega) (by omega) (fun t ht htk => hrun t (by omega) htk)
    rw [hrec]
    omega

lemma runLen_eq_zero {y : List ℚ} {j : ℕ} (h : y.getD j 0 ≠ 1) : runLen y j = 0 := by
  rw [runLen, if_neg h]

lemma runLen_eq_of_run {y : List ℚ} {s k j : ℕ} (hk : k ≤ y.length)
    (hrun : ∀ t, s ≤ t → t < k → y.getD t 0 = 1)
    (hb : s = 0 ∨ y.getD (s - 1) 0 ≠ 1)
    (hend : y.getD k 0 ≠ 1)
    (hsj : s ≤ j) (hjk : j < k) : runLen y j = k - s := by
  have h1 : y.getD j 0 = 1 := hrun j hsj hjk
  rw [runLen, if_pos h1, runStart_eq_of_run hrun hb j hsj hjk,
    onesFrom_drop_eq hk hend (k - j) j rfl (le_of_lt hjk)
      (fun t ht htk => hrun t (le_trans hsj ht) htk)]
  omega

end StormPhase2

namespace StormPhase2

lemma eventLoop_inv (y : List ℚ) :
    ∀ k, k ≤ y.length →
      EventInv y k ((List.range k).foldl (eventStep y) ⟨List.replicate y.length 0, false, 0⟩) := by
  intro k
  induction k with
  | zero =>
    intro _
    simp only [List.range_zero, List.foldl_nil]
    refine ⟨List.length_replicate _ _, ?_, ?_⟩
    · intro h
      exact absurd h Bool.false_ne_true
    · intro _
      refine ⟨Or.inl rfl, ?_⟩
      intro j hj
      rw [if_neg (Nat.not_lt_zero j), List.getD_eq_getElem?_getD, List.getElem?_replicate,
        if_pos hj]
      rfl
  | succ k ih =>
    intro hk1
    have hk : k < y.length := hk1
    obtain ⟨hL, hS, hN⟩ := ih (le_of_lt hk)
    rw [List.range_succ, List.foldl_append, List.foldl_cons, List.foldl_nil]
    set st := (List.range k).foldl (eventStep y) ⟨List.replicate y.length 0, false, 0⟩ with hst
    cases hsb : st.event_started with
    | true =>
      obtain ⟨hslt, hrun, hbound, hlen⟩ := hS hsb
      by_cases hyk : y.getD k 0 = 1
      · have hstep : eventStep y st k = st := by
          rw [eventStep, if_pos hsb, if_neg (not_not_intro hyk)]
        rw [hstep]
        refine ⟨hL, ?_, ?_⟩
        · intro _
          refine ⟨Nat.lt_succ_of_lt hslt, ?_, hbound, hlen⟩
          intro j hsj hjk
          rcases Nat.lt_succ_iff_lt_or_eq.mp hjk with h | h
          · exact hrun j hsj h
          · rw [h]
            exact hyk
        · intro hcon
          rw [hsb] at hcon
          exact Bool.noConfusion hcon
      · have hstep : eventStep y st k =
            ⟨writeRange st.lengths st.event_start_index k (k - st.event_start_index), false,
              st.event_start_index⟩ := by
          rw [eventStep, if_pos hsb, if_pos hyk]
        rw [hstep]
        refine ⟨by rw [writeRange_length]; exact hL, ?_, ?_⟩
        · intro hcon
          exact Bool.noConfusion hcon
        · intro _
          refine ⟨Or.inr (by simpa using hyk), ?_⟩
          intro j hj
          have hjlen : j < st.lengths.length := by
            rw [hL]
            exact hj
          rw [writeRange_getD st.lengths _ _ _ hjlen]
          by_cases hcase : st.event_start_index ≤ j ∧ j < k
          · rw [if_pos hcase, if_pos (Nat.lt_succ_of_lt hcase.2)]
            exact (runLen_eq_of_run (le_of_lt hk) hrun hbound hyk hcase.1 hcase.2).symm
          · rw [if_neg hcase, hlen j hj]
            by_cases hjs : j < st.event_start_index
            · rw [if_pos hjs, if_pos (by omega : j < k + 1)]
            · rw [if_neg hjs]
              have hjk : k ≤ j := by
                have h1 : ¬(j < k) := fun hlt => hcase ⟨Nat.le_of_not_lt hjs, hlt⟩
                omega
              by_cases hjk1 : j < k + 1
              · have hjeq : j = k := by omega
                rw [if_pos hjk1, hjeq, runLen_eq_zero hyk]
              · rw [if_neg hjk1]
    | false =>
      obtain ⟨hbk, hlen⟩ := hN hsb
      by_cases hyk : y.getD k 0 = 1
      · have hstep : eventStep y st k =
            { st with event_started := true, event_start_index := k } := by
          rw [eventStep, if_neg (by rw [hsb]; exact Bool.false_ne_true), if_pos hyk]
        rw [hstep]
        refine ⟨hL, ?_, ?_⟩
        · intro _
          refine ⟨Nat.lt_succ_self k, ?_, hbk, ?_⟩
          · intro j hkj hjk1
            have hkj2 : k ≤ j := hkj
            have hjk2 : j < k + 1 := hjk1
            have hjeq : j = k := by omega
            rw [hjeq]
            exact hyk
          · intro j hj
            exact hlen j hj
        · intro hcon
          exact Bool.noConfusion hcon
      · have hstep : eventStep y st k = st := by
          rw [eventStep, if_neg (by rw [hsb]; exact Bool.false_ne_true), if_neg hyk]
        rw [hstep]
        refine ⟨hL, ?_, ?_⟩
        · intro hcon
          rw [hsb] at hcon
          exact Bool.noConfusion hcon
        · intro _
          refine ⟨Or.inr (by simpa using hyk), ?_⟩
          intro j hj
          rw [hlen j hj]
          by_cases hjk : j < k
          · rw [if_pos hjk, if_pos (Nat.lt_succ_of_lt hjk)]
          · rw [if_neg hjk]
            by_cases hjk1 : j < k + 1
            · have hjeq : j = k := by omega
              rw [if_pos hjk1, hjeq, runLen_eq_zero hyk]
            · rw [if_neg hjk1]

lemma get_event_lengths_spec (y : List ℚ) :
    (get_event_lengths y).length = y.length
    ∧ ∀ j, j < y.length → (get_event_lengths y).getD j 0 = runLen y j := by
  obtain ⟨hL, hS, hN⟩ := eventLoop_inv y y.length (le_refl _)
  set st := (List.range y.length).foldl (eventStep y)
    (⟨List.replicate y.length 0, false, 0⟩ : EventState) with hst
  have hrep : get_event_lengths y
      = if st.event_started = true then
          writeRange st.lengths st.event_start_index y.length
            (y.length - st.event_start_index)
        else st.lengths := rfl
  rw [hrep]
  cases hsb : st.event_started with
  | true =>
    obtain ⟨hslt, hrun, hbound, hlen⟩ := hS hsb
    rw [if_pos rfl]
    constructor
    · rw [writeRange_length]
      exact hL
    · intro j hj
      have hjlen : j < st.lengths.length := by
        rw [hL]
        exact hj
      rw [writeRange_getD _ _ _ _ hjlen]
      by_cases hcase : st.event_start_index ≤ j ∧ j < y.length
      · rw [if_pos hcase]
        have hend : y.getD y.length 0 ≠ 1 := by
          rw [List.getD_eq_default _ _ (le_refl _)]
          norm_num
        exact (runLen_eq_of_run (le_refl _) hrun hbound hend hcase.1 hcase.2).symm
      · have hjs : j < st.event_start_index := by
          rcases Nat.lt_or_ge j st.event_start_index with h | h
          · exact h
          · exact absurd ⟨h, hj⟩ hcase
        rw [if_neg hcase, hlen j hj, if_pos hjs]
  | false =>
    obtain ⟨_, hlen⟩ := hN hsb
    rw [if_neg Bool.false_ne_true]
    refine ⟨hL, ?_⟩
    intro j hj
    rw [hlen j hj, if_pos hj]

end StormPhase2

open StormPhase2 in
/-- C1: `get_event_lengths` returns a sequence of the input's length in which
position `i` holds the length of the maximal contiguous `label == 1` run
containing `i` (and `0` when `label[i] ≠ 1`); in particular an all-ones label
sequence yields `N` at every index, an all-zeros sequence yields `0` at every
index, and a run still open at the end of the sequence is closed at `N`, its
length `N - start` written over all its indices. -/
theorem C1_get_event_lengths (y : List ℚ) :
    (get_event_lengths y).length = y.length
    ∧ (∀ i, i < y.length → (get_event_lengths y).getD i 0 = runLen y i)
    ∧ ((∀ i, i < y.length → y.getD i 0 = 1) →
        ∀ i, i < y.length → (get_event_lengths y).getD i 0 = y.length)
    ∧ ((∀ i, i < y.length → y.getD i 0 = 0) →
        ∀ i, i < y.length → (get_event_lengths y).getD i 0 = 0)
    ∧ (∀ s, s < y.length →
        (∀ t, s ≤ t → t < y.length → y.getD t 0 = 1) →
        (s = 0 ∨ y.getD (s - 1) 0 ≠ 1) →
        ∀ i, s ≤ i → i < y.length →
          (get_event_lengths y).getD i 0 = y.length - s) := by
  obtain ⟨hL, hpt⟩ := get_event_lengths_spec y
  have hend : y.getD y.length 0 ≠ 1 := by
    rw [List.getD_eq_default _ _ (le_refl _)]
    norm_num
  refine ⟨hL, hpt, ?_, ?_, ?_⟩
  · intro hall i hi
    rw [hpt i hi,
      runLen_eq_of_run (le_refl _) (fun t _ ht => hall t ht) (Or.inl rfl) hend
        (Nat.zero_le i) hi]
    omega
  · intro hall i hi
    rw [hpt i hi, runLen_eq_zero (by rw [hall i hi]; norm_num)]
  · intro s _ hrun hb i hsi hi
    rw [hpt i hi, runLen_eq_of_run (le_refl _) hrun hb hend hsi hi]

open StormPhase2 in
/-- Witness for C1 at the label sequence `[1, 1, 0]`: the all-ones clause on
`[1, 1]` and the pointwise clause on `[1, 1, 0]`. -/
theorem C1_get_event_lengths_witness :
    ((∀ i, i < ([(1 : ℚ), 1] : List ℚ).length → ([(1 : ℚ), 1] : List ℚ).getD i 0 = 1)
      ∧ ∀ i, i < ([(1 : ℚ), 1] : List ℚ).length →
          (get_event_lengths [1, 1]).getD i 0 = ([(1 : ℚ), 1] : List ℚ).length)
    ∧ (0 < ([(1 : ℚ), 1, 0] : List ℚ).length
      ∧ (get_event_lengths [1, 1, 0]).getD 0 0 = runLen [1, 1, 0] 0) := by
  constructor
  · refine ⟨?_, (C1_get_event_lengths [1, 1]).2.2.1 ?_⟩ <;>
      · intro i hi
        match i with
        | 0 => rfl
        | 1 => rfl
        | n + 2 => exact absurd hi (by simp)
  · exact ⟨by decide, (C1_get_event_lengths [1, 1, 0]).2.1 0 (by decide)⟩

namespace StormPhase2

lemma drop_cons_getD {y : List (Option ℚ)} {i : ℕ} (hi : i < y.length) :
    y.drop i = y.getD i none :: y.drop (i + 1) := by
  rw [List.drop_eq_getElem_cons hi, List.getD_eq_getElem?_getD,
    List.getElem?_eq_getElem hi]
  rfl

lemma eqRunStart_le (y : List (Option ℚ)) (i : ℕ) : eqRunStart y i ≤ i := by
  induction i with
  | zero => exact le_refl 0
  | succ i ih =>
    rw [eqRunStart]
    by_cases h : cellEq (y.getD (i + 1) none) (y.getD i none) = true
    · rw [if_pos h]
      exact le_trans ih (Nat.le_succ i)
    · rw [if_neg h]

lemma eqRunStart_succ_of_eq {y : List (Option ℚ)} {i : ℕ}
    (h : cellEq (y.getD (i + 1) none) (y.getD i none) = true) :
    eqRunStart y (i + 1) = eqRunStart y i := by
  rw [eqRunStart, if_pos h]

lemma eqRunStart_succ_of_ne {y : List (Option ℚ)} {i : ℕ}
    (h : ¬cellEq (y.getD (i + 1) none) (y.getD i none) = true) :
    eqRunStart y (i + 1) = i + 1 := by
  rw [eqRunStart, if_neg h]

lemma chainLen_cons_cons (a b : Option ℚ) (r : List (Option ℚ)) :
    chainLen (a :: b :: r) = if cellEq b a then chainLen (b :: r) + 1 else 0 := rfl

lemma chainLen_drop_succ {y : List (Option ℚ)} {i : ℕ} (hi : i + 1 < y.length)
    (h : cellEq (y.getD (i + 1) none) (y.getD i none) = true) :
    chainLen (y.drop i) = chainLen (y.drop (i + 1)) + 1 := by
  have h0 : y.drop i = y.getD i none :: y.drop (i + 1) :=
    drop_cons_getD (Nat.lt_of_succ_lt hi)
  have h1 : y.drop (i + 1) = y.getD (i + 1) none :: y.drop (i + 2) := drop_cons_getD hi
  rw [h0, h1, chainLen_cons_cons, if_pos h, ← h1]

lemma chainLen_drop_zero {y : List (Option ℚ)} {i : ℕ} (hi : i < y.length)
    (h : ¬cellEq (y.getD (i + 1) none) (y.getD i none) = true) :
    chainLen (y.drop i) = 0 := by
  have h0 : y.drop i = y.getD i none :: y.drop (i + 1) := drop_cons_getD hi
  by_cases hi1 : i + 1 < y.length
  · have h1 : y.drop (i + 1) = y.getD (i + 1) none :: y.drop (i + 2) := drop_cons_getD hi1
    rw [h0, h1, chainLen_cons_cons, if_neg h]
  · have h1 : y.drop (i + 1) = [] := List.drop_eq_nil_of_le (Nat.le_of_not_lt hi1)
    rw [h0, h1]
    rfl

lemma chainLen_succ_le {l : List (Option ℚ)} (hl : l ≠ []) : chainLen l + 1 ≤ l.length := by
  induction l with
  | nil => exact absurd rfl hl
  | cons a r ih =>
    cases r with
    | nil => exact le_refl 1
    | cons b r2 =>
      rw [chainLen_cons_cons]
      by_cases h : cellEq b a = true
      · rw [if_pos h]
        have := ih (List.cons_ne_nil b r2)
        simpa [List.length_cons] using Nat.succ_le_succ this
      · rw [if_neg h]
        simp [List.length_cons]

lemma eqRunEnd_ge (y : List (Option ℚ)) (i : ℕ) : i + 1 ≤ eqRunEnd y i :=
  Nat.le_add_right _ _

lemma eqRunEnd_le_length {y : List (Option ℚ)} {i : ℕ} (hi : i < y.length) :
    eqRunEnd y i ≤ y.length := by
  have hne : y.drop i ≠ [] := by
    intro hcon
    have := List.drop_eq_nil_iff.mp hcon
    omega
  have h1 := chainLen_succ_le hne
  rw [List.length_drop] at h1
  rw [eqRunEnd]
  omega

lemma eqRunEnd_succ_of_eq {y : List (Option ℚ)} {i : ℕ} (hi : i + 1 < y.length)
    (h : cellEq (y.getD (i + 1) none) (y.getD i none) = true) :
    eqRunEnd y i = eqRunEnd y (i + 1) := by
  rw [eqRunEnd, eqRunEnd, chainLen_drop_succ hi h]
  omega

lemma eqRunEnd_of_ne {y : List (Option ℚ)} {i : ℕ} (hi : i < y.length)
    (h : ¬cellEq (y.getD (i + 1) none) (y.getD i none) = true) :
    eqRunEnd y i = i + 1 := by
  rw [eqRunEnd, chainLen_drop_zero hi h]

lemma run_props {y : List (Option ℚ)} :
    ∀ i j : ℕ, i < y.length → eqRunStart y i ≤ j → j ≤ i →
      eqRunStart y j = eqRunStart y i ∧ eqRunEnd y j = eqRunEnd y i := by
  intro i
  induction i with
  | zero =>
    intro j _ _ h2
    have hj0 : j = 0 := Nat.le_zero.mp h2
    rw [hj0]
    exact ⟨rfl, rfl⟩
  | succ i ih =>
    intro j hlen h1 h2
    rcases Nat.eq_or_lt_of_le h2 with he | hlt
    · rw [he]
      exact ⟨rfl, rfl⟩
    · have hji : j ≤ i := Nat.lt_succ_iff.mp hlt
      by_cases hbe : cellEq (y.getD (i + 1) none) (y.getD i none) = true
      · have hs := eqRunStart_succ_of_eq hbe
        have he2 := eqRunEnd_succ_of_eq hlen hbe
        have h1a : eqRunStart y i ≤ j := by
          rw [← hs]
          exact h1
        obtain ⟨ha, hb2⟩ := ih j (Nat.lt_of_succ_lt hlen) h1a hji
        exact ⟨by rw [hs]; exact ha, by rw [← he2]; exact hb2⟩
      · rw [eqRunStart_succ_of_ne hbe] at h1
        omega

lemma chain_adj {y : List (Option ℚ)} :
    ∀ m j : ℕ, m < chainLen (y.drop j) →
      cellEq (y.getD (j + m + 1) none) (y.getD (j + m) none) = true := by
  intro m
  induction m with
  | zero =>
    intro j h
    by_cases hbe : cellEq (y.getD (j + 1) none) (y.getD j none) = true
    · simpa using hbe
    · by_cases hj : j < y.length
      · rw [chainLen_drop_zero hj hbe] at h
        omega
      · rw [List.drop_eq_nil_of_le (Nat.le_of_not_lt hj)] at h
        exact absurd h (by simp [chainLen])
  | succ m ih =>
    intro j h
    have hpos : 0 < chainLen (y.drop j) := Nat.lt_of_le_of_lt (Nat.zero_le _) h
    by_cases hbe : cellEq (y.getD (j + 1) none) (y.getD j none) = true
    · have hj1 : j + 1 < y.length := by
        by_contra hge
        have h0 : chainLen (y.drop j) = 0 := by
          by_cases hj : j < y.length
          · have hd : y.drop j = y.getD j none :: y.drop (j + 1) := drop_cons_getD hj
            have h1 : y.drop (j + 1) = [] := List.drop_eq_nil_of_le (Nat.le_of_not_lt hge)
            rw [hd, h1]
            rfl
          · rw [List.drop_eq_nil_of_le (Nat.le_of_not_lt hj)]
            rfl
        omega
      rw [chainLen_drop_succ hj1 hbe] at h
      have := ih (j + 1) (by omega)
      have harr1 : j + 1 + m + 1 = j + (m + 1) + 1 := by omega
      have harr2 : j + 1 + m = j + (m + 1) := by omega
      rw [harr1, harr2] at this
      exact this
    · by_cases hj : j < y.length
      · rw [chainLen_drop_zero hj hbe] at h
        omega
      · rw [List.drop_eq_nil_of_le (Nat.le_of_not_lt hj)] at h
        exact absurd h (by simp [chainLen])

lemma start_le_of_chain {y : List (Option ℚ)} :
    ∀ t j : ℕ, j ≤ t →
      (∀ u, j ≤ u → u < t → cellEq (y.getD (u + 1) none) (y.getD u none) = true) →
      eqRunStart y t ≤ j := by
  intro t
  induction t with
  | zero =>
    intro j hj _
    have hj0 : j = 0 := Nat.le_zero.mp hj
    rw [hj0]
    exact Nat.le_refl 0
  | succ t ih =>
    intro j hj hchain
    rcases Nat.eq_or_lt_of_le hj with he | hlt
    · rw [← he]
      exact eqRunStart_le y j
    · have hjt : j ≤ t := Nat.lt_succ_iff.mp hlt
      rw [eqRunStart_succ_of_eq (hchain t hjt (Nat.lt_succ_self t))]
      exact ih j hjt (fun u hu hut => hchain u hu (Nat.lt_succ_of_lt hut))

lemma eqRunStart_le_of_lt_end {y : List (Option ℚ)} {t j : ℕ} (hjt : j ≤ t)
    (hlt : t < eqRunEnd y j) : eqRunStart y t ≤ j := by
  apply start_le_of_chain t j hjt
  intro u hu hut
  have hm : u - j < chainLen (y.drop j) := by
    rw [eqRunEnd] at hlt
    omega
  have := chain_adj (u - j) j hm
  have harr : j + (u - j) = u := by omega
  rw [harr] at this
  exact this

lemma lt_eqRunEnd_of_chain {y : List (Option ℚ)} :
    ∀ d t j : ℕ, t - j = d → j ≤ t → t < y.length →
      (∀ u, j ≤ u → u < t → cellEq (y.getD (u + 1) none) (y.getD u none) = true) →
      t < eqRunEnd y j := by
  intro d
  induction d with
  | zero =>
    intro t j hd hjt _ _
    have : j = t := by omega
    rw [this]
    exact eqRunEnd_ge y t
  | succ d ih =>
    intro t j hd hjt htlen hchain
    have hjlt : j < t := by omega
    have hbe : cellEq (y.getD (j + 1) none) (y.getD j none) = true :=
      hchain j (le_refl j) hjlt
    have hj1 : j + 1 < y.length := by omega
    rw [eqRunEnd_succ_of_eq hj1 hbe]
    exact ih t (j + 1) (by omega) (by omega) htlen
      (fun u hu hut => hchain u (by omega) hut)

end StormPhase2

namespace StormPhase2

lemma dupLoop_inv (y : List (Option ℚ)) (K : ℕ) (hK : 2 ≤ K) :
    ∀ m, m + 1 ≤ y.length →
      DupInv y K m (((List.range m).map (fun t => t + 1)).foldl (dupStep y K)
        (1, List.replicate y.length 0)) := by
  intro m
  induction m with
  | zero =>
    intro _
    simp only [List.range_zero, List.map_nil, List.foldl_nil]
    refine ⟨rfl, List.length_replicate _ _, ?_⟩
    intro j hj
    have hrep : (List.replicate y.length (0 : ℕ)).getD j 0 = 0 := by
      rw [List.getD_eq_getElem?_getD, List.getElem?_replicate, if_pos hj]
      rfl
    refine ⟨?_, by rw [hrep]; exact Or.inl rfl⟩
    rw [hrep]
    constructor
    · intro h
      exact absurd h (by norm_num)
    · rintro ⟨hj0, hKle⟩
      have hj00 : j = 0 := Nat.le_zero.mp hj0
      rw [hj00] at hKle
      have h1 : eqRunStart y 0 = 0 := rfl
      have h2 : 1 ≤ eqRunEnd y 0 := eqRunEnd_ge y 0
      rw [h1] at hKle
      omega
  | succ m ih =>
    intro hm1
    have hmlen : m + 1 < y.length := hm1
    obtain ⟨hcnt, hflen, hmask⟩ := ih (by omega)
    rw [List.range_succ, List.map_append, List.foldl_append]
    simp only [List.map_cons, List.map_nil, List.foldl_cons, List.foldl_nil]
    set st := ((List.range m).map (fun t => t + 1)).foldl (dupStep y K)
      (1, List.replicate y.length 0) with hst
    set s := eqRunStart y (m + 1) with hsdef
    have hsle : s ≤ m + 1 := eqRunStart_le y (m + 1)
    have hstart_le_m := eqRunStart_le y m
    have hcount : (if cellEq (y.getD (m + 1) none) (y.getD (m + 1 - 1) none)
        then st.1 + 1 else 1) = m + 2 - s := by
      have hsub : m + 1 - 1 = m := rfl
      rw [hsub]
      by_cases hbe : cellEq (y.getD (m + 1) none) (y.getD m none) = true
      · rw [if_pos hbe, hcnt, hsdef, eqRunStart_succ_of_eq hbe]
        omega
      · rw [if_neg hbe, hsdef, eqRunStart_succ_of_ne hbe]
        omega
    have hend_run : ∀ j, s ≤ j → j ≤ m + 1 →
        eqRunStart y j = s ∧ eqRunEnd y j = eqRunEnd y (m + 1) :=
      fun j h1 h2 => run_props (m + 1) j hmlen h1 h2
    have hend_big : m + 2 ≤ eqRunEnd y (m + 1) := eqRunEnd_ge y (m + 1)
    have hout_small : ∀ j, j < s → eqRunEnd y j ≤ m + 1 := by
      intro j hjs
      by_contra hgt
      have h1 : m + 1 < eqRunEnd y j := Nat.lt_of_not_le hgt
      have h2 : eqRunStart y (m + 1) ≤ j := eqRunStart_le_of_lt_end (by omega) h1
      omega
    have hstep : dupStep y K st (m + 1)
        = (if K ≤ m + 2 - s
            then ((m + 2 - s), writeRange st.2 (m + 1 + 1 - (m + 2 - s)) (m + 1 + 1) 1)
            else ((m + 2 - s), st.2)) := by
      show (if K ≤ (if cellEq (y.getD (m + 1) none) (y.getD (m + 1 - 1) none)
              then st.1 + 1 else 1)
            then ((if cellEq (y.getD (m + 1) none) (y.getD (m + 1 - 1) none)
                then st.1 + 1 else 1),
              writeRange st.2
                (m + 1 + 1 - (if cellEq (y.getD (m + 1) none) (y.getD (m + 1 - 1) none)
                  then st.1 + 1 else 1))
                (m + 1 + 1) 1)
            else ((if cellEq (y.getD (m + 1) none) (y.getD (m + 1 - 1) none)
                then st.1 + 1 else 1), st.2)) = _
      rw [hcount]
    rw [hstep]
    have hws : m + 1 + 1 - (m + 2 - s) = s := by omega
    by_cases hKc : K ≤ m + 2 - s
    · rw [if_pos hKc, hws]
      refine ⟨by omega, by rw [writeRange_length]; exact hflen, ?_⟩
      intro j hj
      have hjlen : j < st.2.length := by
        rw [hflen]
        exact hj
      rw [writeRange_getD st.2 _ _ _ hjlen]
      by_cases hin : s ≤ j ∧ j < m + 1 + 1
      · rw [if_pos hin]
        obtain ⟨hstj, hendj⟩ := hend_run j hin.1 (by omega)
        refine ⟨?_, Or.inr rfl⟩
        constructor
        · intro _
          refine ⟨by omega, ?_⟩
          rw [hstj, hendj]
          omega
        · intro _
          rfl
      · rw [if_neg hin]
        obtain ⟨hiff_old, hbin⟩ := hmask j hj
        refine ⟨?_, hbin⟩
        rw [hiff_old]
        by_cases hjs : j < s
        · have hsmall := hout_small j hjs
          omega
        · have hjge : m + 2 ≤ j := by omega
          omega
    · rw [if_neg hKc]
      refine ⟨by omega, hflen, ?_⟩
      intro j hj
      obtain ⟨hiff_old, hbin⟩ := hmask j hj
      refine ⟨?_, hbin⟩
      rw [hiff_old]
      by_cases hjs : j < s
      · have hsmall := hout_small j hjs
        omega
      · by_cases hjin : j ≤ m + 1
        · obtain ⟨hstj, hendj⟩ := hend_run j (by omega) hjin
          rw [hstj, hendj]
          omega
        · omega

end StormPhase2

namespace StormPhase2

lemma getD_zip {α β : Type} {l1 : List α} {l2 : List β} {i : ℕ}
    (h1 : i < l1.length) (h2 : i < l2.length) (d1 : α) (d2 : β) :
    (l1.zip l2).getD i (d1, d2) = (l1.getD i d1, l2.getD i d2) := by
  have hz : i < (l1.zip l2).length := by
    rw [List.length_zip]
    omega
  rw [List.getD_eq_getElem?_getD, List.getElem?_eq_getElem hz,
    List.getD_eq_getElem?_getD, List.getElem?_eq_getElem h1,
    List.getD_eq_getElem?_getD, List.getElem?_eq_getElem h2]
  simp only [Option.getD_some]
  exact List.getElem_zip

lemma find_subsequent_duplicates_spec (y : List (Option ℚ)) (K : ℕ) (hK : 2 ≤ K) :
    (find_subsequent_duplicates y K).length = y.length
    ∧ ∀ j, j < y.length →
        ((find_subsequent_duplicates y K).getD j 0 = 1 ↔ K ≤ eqRunLen y j)
        ∧ ((find_subsequent_duplicates y K).getD j 0 = 0
            ∨ (find_subsequent_duplicates y K).getD j 0 = 1) := by
  by_cases hn : y.length < 2 ∨ K < 1
  · have hrw : find_subsequent_duplicates y K = List.replicate y.length 0 := by
      rw [find_subsequent_duplicates, if_pos hn]
    rw [hrw]
    refine ⟨List.length_replicate _ _, ?_⟩
    intro j hj
    have hrep : (List.replicate y.length (0 : ℕ)).getD j 0 = 0 := by
      rw [List.getD_eq_getElem?_getD, List.getElem?_replicate, if_pos hj]
      rfl
    rw [hrep]
    refine ⟨?_, Or.inl rfl⟩
    constructor
    · intro h
      exact absurd h (by norm_num)
    · intro hKle
      have hn2 : y.length < 2 := by
        rcases hn with h | h
        · exact h
        · omega
      have hj0 : j = 0 := by omega
      have hend := eqRunEnd_le_length hj
      have hstz : eqRunStart y j = 0 := by
        rw [hj0]
        rfl
      rw [eqRunLen, hstz] at hKle
      omega
  · have hrw : find_subsequent_duplicates y K
        = (((List.range (y.length - 1)).map (fun t => t + 1)).foldl (dupStep y K)
            (1, List.replicate y.length 0)).2 := by
      rw [find_subsequent_duplicates, if_neg hn]
    have hn2 : 2 ≤ y.length := by
      by_contra h
      exact hn (Or.inl (by omega))
    obtain ⟨hcnt, hflen, hmask⟩ := dupLoop_inv y K hK (y.length - 1) (by omega)
    rw [hrw]
    refine ⟨hflen, ?_⟩
    intro j hj
    obtain ⟨hiff, hbin⟩ := hmask j hj
    refine ⟨?_, hbin⟩
    rw [hiff, eqRunLen]
    have hendle := eqRunEnd_le_length hj
    have hstle := eqRunStart_le y j
    omega

lemma cellEq_first_of_eqRunStart_zero {y : List (Option ℚ)} :
    ∀ i, 1 ≤ i → eqRunStart y i = 0 →
      cellEq (y.getD 1 none) (y.getD 0 none) = true := by
  intro i
  induction i with
  | zero =>
    intro h1 _
    exact absurd h1 (by omega)
  | succ i ih =>
    intro _ h0
    by_cases hc : cellEq (y.getD (i + 1) none) (y.getD i none) = true
    · rw [eqRunStart_succ_of_eq hc] at h0
      rcases Nat.eq_zero_or_pos i with hi0 | hipos
      · rw [hi0] at hc
        exact hc
      · exact ih hipos h0
    · rw [eqRunStart_succ_of_ne hc] at h0
      exact absurd h0 (by omega)

lemma dupLoop1_inv (y : List (Option ℚ)) :
    ∀ m, m + 1 ≤ y.length →
      DupInv1 y m (((List.range m).map (fun t => t + 1)).foldl (dupStep y 1)
        (1, List.replicate y.length 0)) := by
  intro m
  induction m with
  | zero =>
    intro _
    simp only [List.range_zero, List.map_nil, List.foldl_nil]
    refine ⟨rfl, List.length_replicate _ _, ?_⟩
    intro j hj
    have hrep : (List.replicate y.length (0 : ℕ)).getD j 0 = 0 := by
      rw [List.getD_eq_getElem?_getD, List.getElem?_replicate, if_pos hj]
      rfl
    refine ⟨?_, by rw [hrep]; exact Or.inl rfl⟩
    rw [hrep]
    constructor
    · intro h
      exact absurd h (by norm_num)
    · rintro (⟨h1, h2⟩ | ⟨_, h1, _⟩) <;> omega
  | succ m ih =>
    intro hm1
    have hmlen : m + 1 < y.length := hm1
    obtain ⟨hcnt, hflen, hmask⟩ := ih (by omega)
    rw [List.range_succ, List.map_append, List.foldl_append]
    simp only [List.map_cons, List.map_nil, List.foldl_cons, List.foldl_nil]
    set st := ((List.range m).map (fun t => t + 1)).foldl (dupStep y 1)
      (1, List.replicate y.length 0) with hst
    set s := eqRunStart y (m + 1) with hsdef
    have hsle : s ≤ m + 1 := eqRunStart_le y (m + 1)
    have hstart_le_m := eqRunStart_le y m
    have hcount : (if cellEq (y.getD (m + 1) none) (y.getD (m + 1 - 1) none)
        then st.1 + 1 else 1) = m + 2 - s := by
      have hsub : m + 1 - 1 = m := rfl
      rw [hsub]
      by_cases hbe : cellEq (y.getD (m + 1) none) (y.getD m none) = true
      · rw [if_pos hbe, hcnt, hsdef, eqRunStart_succ_of_eq hbe]
        omega
      · rw [if_neg hbe, hsdef, eqRunStart_succ_of_ne hbe]
        omega
    have hstep : dupStep y 1 st (m + 1)
        = ((m + 2 - s), writeRange st.2 (m + 1 + 1 - (m + 2 - s)) (m + 1 + 1) 1) := by
      show (if 1 ≤ (if cellEq (y.getD (m + 1) none) (y.getD (m + 1 - 1) none)
              then st.1 + 1 else 1)
            then ((if cellEq (y.getD (m + 1) none) (y.getD (m + 1 - 1) none)
                then st.1 + 1 else 1),
              writeRange st.2
                (m + 1 + 1 - (if cellEq (y.getD (m + 1) none) (y.getD (m + 1 - 1) none)
                  then st.1 + 1 else 1))
                (m + 1 + 1) 1)
            else ((if cellEq (y.getD (m + 1) none) (y.getD (m + 1 - 1) none)
                then st.1 + 1 else 1), st.2)) = _
      rw [hcount, if_pos (by omega : 1 ≤ m + 2 - s)]
    rw [hstep]
    have hws : m + 1 + 1 - (m + 2 - s) = s := by omega
    rw [hws]
    refine ⟨by omega, by rw [writeRange_length]; exact hflen, ?_⟩
    intro j hj
    have hjlen : j < st.2.length := by
      rw [hflen]
      exact hj
    rw [writeRange_getD st.2 _ _ _ hjlen]
    by_cases hin : s ≤ j ∧ j < m + 1 + 1
    · rw [if_pos hin]
      refine ⟨?_, Or.inr rfl⟩
      constructor
      · intro _
        rcases Nat.eq_zero_or_pos j with hj0 | hjpos
        · refine Or.inr ⟨hj0, by omega, ?_⟩
          have hs0 : eqRunStart y (m + 1) = 0 := by omega
          exact cellEq_first_of_eqRunStart_zero (m + 1) (by omega) hs0
        · exact Or.inl ⟨hjpos, by omega⟩
      · intro _
        rfl
    · rw [if_neg hin]
      obtain ⟨hiff_old, hbin⟩ := hmask j hj
      refine ⟨?_, hbin⟩
      rw [hiff_old]
      constructor
      · rintro (⟨h1, h2⟩ | ⟨h0, hm0, hc⟩)
        · exact Or.inl ⟨h1, by omega⟩
        · exact Or.inr ⟨h0, by omega, hc⟩
      · rintro (⟨h1, h2⟩ | ⟨h0, hm0, hc⟩)
        · refine Or.inl ⟨h1, ?_⟩
          by_contra hgt
          exact hin ⟨by omega, by omega⟩
        · rcases Nat.eq_zero_or_pos m with hmz | hmpos
          · exfalso
            apply hin
            have hs0 : s = 0 := by
              rw [hsdef]
              subst hmz
              rw [eqRunStart_succ_of_eq hc]
              rfl
            exact ⟨by omega, by omega⟩
          · exact Or.inr ⟨h0, hmpos, hc⟩

lemma find_subsequent_duplicates_one_spec (y : List (Option ℚ)) (hn2 : 2 ≤ y.length) :
    (find_subsequent_duplicates y 1).length = y.length
    ∧ ∀ j, j < y.length →
        ((find_subsequent_duplicates y 1).getD j 0 = 1
          ↔ (1 ≤ j ∨ cellEq (y.getD 1 none) (y.getD 0 none) = true))
        ∧ ((find_subsequent_duplicates y 1).getD j 0 = 0
            ∨ (find_subsequent_duplicates y 1).getD j 0 = 1) := by
  have hn : ¬(y.length < 2 ∨ 1 < 1) := by
    rintro (h | h) <;> omega
  have hrw : find_subsequent_duplicates y 1
      = (((List.range (y.length - 1)).map (fun t => t + 1)).foldl (dupStep y 1)
          (1, List.replicate y.length 0)).2 := by
    rw [find_subsequent_duplicates, if_neg hn]
  obtain ⟨hcnt, hflen, hmask⟩ := dupLoop1_inv y (y.length - 1) (by omega)
  rw [hrw]
  refine ⟨hflen, ?_⟩
  intro j hj
  obtain ⟨hiff, hbin⟩ := hmask j hj
  refine ⟨?_, hbin⟩
  rw [hiff]
  constructor
  · rintro (⟨h1, _⟩ | ⟨_, _, hc⟩)
    · exact Or.inl h1
    · exact Or.inr hc
  · rintro (h1 | hc)
    · exact Or.inl ⟨h1, by omega⟩
    · rcases Nat.eq_zero_or_pos j with hj0 | hjpos
      · exact Or.inr ⟨hj0, by omega, hc⟩
      · exact Or.inl ⟨hjpos, by omega⟩

lemma find_subsequent_duplicates_length (y : List (Option ℚ)) (K : ℕ) :
    (find_subsequent_duplicates y K).length = y.length := by
  rw [find_subsequent_duplicates]
  by_cases h : y.length < 2 ∨ K < 1
  · rw [if_pos h, List.length_replicate]
  · rw [if_neg h]
    have hfold : ∀ (l : List ℕ) (st : ℕ × List ℕ), st.2.length = y.length →
        (l.foldl (dupStep y K) st).2.length = y.length := by
      intro l
      induction l with
      | nil =>
        intro st hstl
        exact hstl
      | cons a t iht =>
        intro st hstl
        simp only [List.foldl_cons]
        apply iht
        show (dupStep y K st a).2.length = y.length
        simp only [dupStep]
        split <;> split <;>
          first
          | (rw [writeRange_length]; exact hstl)
          | exact hstl
    exact hfold _ _ (List.length_replicate _ _)

lemma preprocessMissing_length (supplied : List ℚ) (S BU : List (Option ℚ)) (K : ℕ)
    (hsl : supplied.length = S.length) (hbl : BU.length = S.length) :
    (preprocessMissing supplied S BU K).length = S.length := by
  rw [preprocessMissing]
  rw [List.length_map, List.length_zip, List.length_map, List.length_zip,
    List.length_map, List.length_zip, find_subsequent_duplicates_length]
  omega

lemma preprocessMissing_getD_raw (supplied : List ℚ) (S BU : List (Option ℚ)) (K : ℕ)
    (hsl : supplied.length = S.length) (hbl : BU.length = S.length)
    {i : ℕ} (hi : i < S.length) :
    (preprocessMissing supplied S BU K).getD i false = true
      ↔ (S.getD i none = none ∨ BU.getD i none = none
        ∨ supplied.getD i 0 ≠ 0 ∨ (find_subsequent_duplicates S K).getD i 0 ≠ 0) := by
  have hdlen : (find_subsequent_duplicates S K).length = S.length :=
    find_subsequent_duplicates_length S K
  have his : i < supplied.length := by omega
  have hib : i < BU.length := by omega
  have hm1 : ((supplied.zip BU).map
      (fun p => if p.2 = none then (1 : ℚ) else p.1)).getD i 0
      = if BU.getD i none = none then (1 : ℚ) else supplied.getD i 0 := by
    have hiz : i < (supplied.zip BU).length := by
      rw [List.length_zip]
      omega
    rw [getD_map_of_lt _ _ hiz 0 (0, none), getD_zip his hib 0 none]
  have hm2 : ((((supplied.zip BU).map
      (fun p => if p.2 = none then (1 : ℚ) else p.1)).zip S).map
      (fun p => if p.2 = none then (1 : ℚ) else p.1)).getD i 0
      = if S.getD i none = none then (1 : ℚ)
        else if BU.getD i none = none then (1 : ℚ) else supplied.getD i 0 := by
    have hiz : i < (((supplied.zip BU).map
        (fun p => if p.2 = none then (1 : ℚ) else p.1)).zip S).length := by
      rw [List.length_zip, List.length_map, List.length_zip]
      omega
    rw [getD_map_of_lt _ _ hiz 0 (0, none),
      getD_zip (by rw [List.length_map, List.length_zip]; omega) hi 0 none, ← hm1]
  have hout : (preprocessMissing supplied S BU K).getD i false
      = (decide ((if S.getD i none = none then (1 : ℚ)
            else if BU.getD i none = none then (1 : ℚ) else supplied.getD i 0) ≠ 0)
        || decide ((find_subsequent_duplicates S K).getD i 0 ≠ 0)) := by
    rw [preprocessMissing]
    have hiz : i < ((((((supplied.zip BU).map
        (fun (p : ℚ × Option ℚ) => if p.2 = none then (1 : ℚ) else p.1)).zip S).map
        (fun (p : ℚ × Option ℚ) => if p.2 = none then (1 : ℚ) else p.1)).zip
          (find_subsequent_duplicates S K))).length := by
      rw [List.length_zip, List.length_map, List.length_zip, List.length_map,
        List.length_zip]
      omega
    rw [getD_map_of_lt _ _ hiz false (0, 0),
      getD_zip (by rw [List.length_map, List.length_zip, List.length_map,
        List.length_zip]; omega) (by omega) 0 0, hm2]
  rw [hout]
  simp only [Bool.or_eq_true, decide_eq_true_eq]
  constructor
  · rintro (h | h)
    · by_cases hS : S.getD i none = none
      · exact Or.inl hS
      · by_cases hB : BU.getD i none = none
        · exact Or.inr (Or.inl hB)
        · rw [if_neg hS, if_neg hB] at h
          exact Or.inr (Or.inr (Or.inl h))
    · exact Or.inr (Or.inr (Or.inr h))
  · rintro (h | h | h | h)
    · left
      rw [if_pos h]
      norm_num
    · left
      by_cases hS : S.getD i none = none
      · rw [if_pos hS]
        norm_num
      · rw [if_neg hS, if_pos h]
        norm_num
    · left
      by_cases hS : S.getD i none = none
      · rw [if_pos hS]
        norm_num
      · by_cases hB : BU.getD i none = none
        · rw [if_neg hS, if_pos hB]
          norm_num
        · rw [if_neg hS, if_neg hB]
          exact h
    · right
      exact h

lemma preprocessMissing_getD (supplied : List ℚ) (S BU : List (Option ℚ)) (K : ℕ)
    (hK : 2 ≤ K) (hsl : supplied.length = S.length) (hbl : BU.length = S.length)
    {i : ℕ} (hi : i < S.length) :
    (preprocessMissing supplied S BU K).getD i false = true
      ↔ (S.getD i none = none ∨ BU.getD i none = none
        ∨ supplied.getD i 0 ≠ 0 ∨ K ≤ eqRunLen S i) := by
  obtain ⟨hdlen, hdup⟩ := find_subsequent_duplicates_spec S K hK
  obtain ⟨hdiff, hdbin⟩ := hdup i hi
  have his : i < supplied.length := by omega
  have hib : i < BU.length := by omega
  have hm1len : ((supplied.zip BU).map
      (fun p => if p.2 = none then (1 : ℚ) else p.1)).length = S.length := by
    rw [List.length_map, List.length_zip]
    omega
  have hm1 : ((supplied.zip BU).map
      (fun p => if p.2 = none then (1 : ℚ) else p.1)).getD i 0
      = if BU.getD i none = none then (1 : ℚ) else supplied.getD i 0 := by
    have hiz : i < (supplied.zip BU).length := by
      rw [List.length_zip]
      omega
    rw [getD_map_of_lt _ _ hiz 0 (0, none), getD_zip his hib 0 none]
  have hm2len : ((((supplied.zip BU).map
      (fun p => if p.2 = none then (1 : ℚ) else p.1)).zip S).map
      (fun p => if p.2 = none then (1 : ℚ) else p.1)).length = S.length := by
    rw [List.length_map, List.length_zip]
    omega
  have hm2 : ((((supplied.zip BU).map
      (fun p => if p.2 = none then (1 : ℚ) else p.1)).zip S).map
      (fun p => if p.2 = none then (1 : ℚ) else p.1)).getD i 0
      = if S.getD i none = none then (1 : ℚ)
        else if BU.getD i none = none then (1 : ℚ) else supplied.getD i 0 := by
    have hiz : i < (((supplied.zip BU).map
        (fun p => if p.2 = none then (1 : ℚ) else p.1)).zip S).length := by
      rw [List.length_zip]
      omega
    rw [getD_map_of_lt _ _ hiz 0 (0, none), getD_zip (by omega) hi 0 none, ← hm1]
  have hout : (preprocessMissing supplied S BU K).getD i false
      = (decide ((if S.getD i none = none then (1 : ℚ)
            else if BU.getD i none = none then (1 : ℚ) else supplied.getD i 0) ≠ 0)
        || decide ((find_subsequent_duplicates S K).getD i 0 ≠ 0)) := by
    rw [preprocessMissing]
    have hiz : i < ((((((supplied.zip BU).map
        (fun (p : ℚ × Option ℚ) => if p.2 = none then (1 : ℚ) else p.1)).zip S).map
        (fun (p : ℚ × Option ℚ) => if p.2 = none then (1 : ℚ) else p.1)).zip
          (find_subsequent_duplicates S K))).length := by
      rw [List.length_zip]
      omega
    rw [getD_map_of_lt _ _ hiz false (0, 0), getD_zip (by omega) (by omega) 0 0, hm2]
  rw [hout]
  simp only [Bool.or_eq_true, decide_eq_true_eq]
  have hdupiff : (find_subsequent_duplicates S K).getD i 0 ≠ 0 ↔ K ≤ eqRunLen S i := by
    constructor
    · intro h
      rcases hdbin with h0 | h1
      · exact absurd h0 h
      · exact hdiff.mp h1
    · intro h
      rw [hdiff.mpr h]
      norm_num
  rw [hdupiff]
  constructor
  · rintro (h | h)
    · by_cases hS : S.getD i none = none
      · exact Or.inl hS
      · by_cases hB : BU.getD i none = none
        · exact Or.inr (Or.inl hB)
        · rw [if_neg hS, if_neg hB] at h
          exact Or.inr (Or.inr (Or.inl h))
    · exact Or.inr (Or.inr (Or.inr h))
  · rintro (h | h | h | h)
    · left
      rw [if_pos h]
      norm_num
    · left
      by_cases hS : S.getD i none = none
      · rw [if_pos hS]
        norm_num
      · rw [if_neg hS, if_pos h]
        norm_num
    · left
      by_cases hS : S.getD i none = none
      · rw [if_pos hS]
        norm_num
      · by_cases hB : BU.getD i none = none
        · rw [if_neg hS, if_pos hB]
          norm_num
        · rw [if_neg hS, if_neg hB]
          exact h
    · right
      exact h

end StormPhase2

open StormPhase2 in
/-- C7 counterexample: with `subsequent_nr = 1` every sample sits in a run of
length `1 ≥ 1`, so the claim demands `missing = 1` everywhere; but on
`S = [1, 2]` (no nulls, no supplied missing) the code leaves sample 0
unflagged — `find_subsequent_duplicates` never marks index 0 when its
neighbour differs, and for `n < 2` it returns all zeros outright. -/
theorem C7_counterexample :
    1 ≤ eqRunLen [some 1, some 2] 0
    ∧ ([some (1 : ℚ), some 2] : List (Option ℚ)).getD 0 none ≠ none
    ∧ ([some (0 : ℚ), some 0] : List (Option ℚ)).getD 0 none ≠ none
    ∧ ([(0 : ℚ), 0] : List ℚ).getD 0 0 = 0
    ∧ (preprocessMissing [0, 0] [some 1, some 2] [some 0, some 0] 1).getD 0 false = false := by
  refine ⟨?_, by simp, by simp, rfl, ?_⟩
  · norm_num [eqRunLen, eqRunEnd, eqRunStart, chainLen, cellEq]
  · norm_num [preprocessMissing, find_subsequent_duplicates, dupStep, writeRange,
      cellEq, List.range_succ]
    decide

open StormPhase2 in
/-- C7 (amended): the missing mask has the station's length and, for every
`subsequent_nr ≥ 2`, is 1 exactly at samples where `S_original` or
`BU_original` is null, or the supplied missing column is nonzero, or the
sample lies in a run of `subsequent_nr` or more consecutive equal values of
`S`; in particular a constant (zero-variance) `S` of length at least
`subsequent_nr` is flagged missing everywhere.  At `subsequent_nr = 1` the
run rule fails: every sample lies in a run of length at least 1, yet the
mask is 1 exactly at samples with a null, a nonzero supplied flag, an index
at least 1, or equal first two values of `S` — so sample 0 stays unflagged
whenever it differs from its neighbour at index 1. -/
theorem C7_missing_mask_amended (supplied : List ℚ) (S BU : List (Option ℚ)) (K : ℕ)
    (hsl : supplied.length = S.length) (hbl : BU.length = S.length) :
    (preprocessMissing supplied S BU K).length = S.length
    ∧ (2 ≤ K →
        (∀ i, i < S.length →
          ((preprocessMissing supplied S BU K).getD i false = true
            ↔ (S.getD i none = none ∨ BU.getD i none = none
              ∨ supplied.getD i 0 ≠ 0 ∨ K ≤ eqRunLen S i)))
        ∧ (∀ c : ℚ, (∀ t, t < S.length → S.getD t none = some c) → K ≤ S.length →
            ∀ i, i < S.length → (preprocessMissing supplied S BU K).getD i false = true))
    ∧ (K = 1 → 2 ≤ S.length → ∀ i, i < S.length →
        1 ≤ eqRunLen S i
        ∧ ((preprocessMissing supplied S BU K).getD i false = true
          ↔ (S.getD i none = none ∨ BU.getD i none = none
            ∨ supplied.getD i 0 ≠ 0 ∨ 1 ≤ i
            ∨ cellEq (S.getD 1 none) (S.getD 0 none) = true))) := by
  refine ⟨preprocessMissing_length supplied S BU K hsl hbl, ?_, ?_⟩
  · intro hK
    refine ⟨fun i hi => preprocessMissing_getD supplied S BU K hK hsl hbl hi, ?_⟩
    intro c hconst hKn i hi
    rw [preprocessMissing_getD supplied S BU K hK hsl hbl hi]
    refine Or.inr (Or.inr (Or.inr ?_))
    have hchain : ∀ u, u + 1 < S.length →
        cellEq (S.getD (u + 1) none) (S.getD u none) = true := by
      intro u hu
      rw [hconst (u + 1) hu, hconst u (by omega)]
      simp [cellEq]
    have hstart : eqRunStart S i = 0 :=
      Nat.le_zero.mp (start_le_of_chain i 0 (Nat.zero_le i)
        (fun u _ hu2 => hchain u (by omega)))
    have hend : S.length - 1 < eqRunEnd S i :=
      lt_eqRunEnd_of_chain (S.length - 1 - i) (S.length - 1) i (by omega) (by omega)
        (by omega) (fun u hu hut => hchain u (by omega))
    rw [eqRunLen, hstart]
    omega
  · intro hK1 hlen2 i hi
    subst hK1
    refine ⟨?_, ?_⟩
    · have h1 := eqRunEnd_ge S i
      have h2 := eqRunStart_le S i
      rw [eqRunLen]
      omega
    · rw [preprocessMissing_getD_raw supplied S BU 1 hsl hbl hi]
      obtain ⟨_, hdup⟩ := find_subsequent_duplicates_one_spec S hlen2
      obtain ⟨hiff, hbin⟩ := hdup i hi
      have hdupiff : (find_subsequent_duplicates S 1).getD i 0 ≠ 0
          ↔ (1 ≤ i ∨ cellEq (S.getD 1 none) (S.getD 0 none) = true) := by
        constructor
        · intro h
          rcases hbin with h0 | h1
          · exact absurd h0 h
          · exact hiff.mp h1
        · intro h
          rw [hiff.mpr h]
          norm_num
      rw [hdupiff]

open StormPhase2 in
/-- Witness for C7: a constant `S = [5, 5]` with `subsequent_nr = 2` flags
sample 0 as missing. -/
theorem C7_missing_mask_witness :
    ([(0 : ℚ), 0] : List ℚ).length = ([some (5 : ℚ), some 5] : List (Option ℚ)).length
    ∧ ([some (1 : ℚ), some 1] : List (Option ℚ)).length
        = ([some (5 : ℚ), some 5] : List (Option ℚ)).length
    ∧ 2 ≤ 2
    ∧ (preprocessMissing [0, 0] [some 5, some 5] [some 1, some 1] 2).getD 0 false = true
    ∧ 2 ≤ ([some (5 : ℚ), some 5] : List (Option ℚ)).length
    ∧ (preprocessMissing [0, 0] [some 5, some 5] [some 1, some 1] 1).getD 0 false = true := by
  refine ⟨rfl, rfl, by decide, ?_, by decide, ?_⟩
  · refine ((C7_missing_mask_amended [0, 0] [some 5, some 5] [some 1, some 1] 2 rfl rfl).2.1
      (by decide)).2 5 ?_ (by decide) 0 (by decide)
    intro t ht
    match t with
    | 0 => rfl
    | 1 => rfl
    | n + 2 => exact absurd ht (by simp)
  · refine (((C7_missing_mask_amended [0, 0] [some 5, some 5] [some 1, some 1] 1 rfl rfl).2.2
      rfl (by decide) 0 (by decide)).2).mpr ?_
    refine Or.inr (Or.inr (Or.inr (Or.inr ?_)))
    decide

open StormPhase2 in
/-- C6 counterexample: with fit coefficients `(a, b) = (-1, 0)`,
`S_original = [1, 2]`, `BU_original = [-1, 3]`: the code flips
(`min(S_original) = 1 ≥ 0` and raw `BU_original[argmin] = -1 < 0`), yielding
`S = [1, -2]`, while the claim's condition reads the fitted value
`a·BU_original+b = 1 ≥ 0` at the argmin and predicts no flip, `S = [1, 2]`. -/
theorem C6_counterexample :
    (preprocessSignFlip (-1) 0 [1, 2] [-1, 3] [1, 2]).2 = [1, -2]
    ∧ (preprocessSignFlipSpec (-1) 0 [1, 2] [-1, 3] [1, 2]).2 = [1, 2]
    ∧ (preprocessSignFlip (-1) 0 [1, 2] [-1, 3] [1, 2]).2
      ≠ (preprocessSignFlipSpec (-1) 0 [1, 2] [-1, 3] [1, 2]).2 := by
  refine ⟨?_, ?_, ?_⟩ <;>
    norm_num [preprocessSignFlip, preprocessSignFlipSpec, npSign, listMin,
      argminQ, argminAux]

open StormPhase2 in
/-- C6 (amended): `preprocess_data` applies the sign flip `S = sign(BU)·S`
exactly when `min(S_original) ≥ 0` and the RAW `BU_original` value (not the
fitted `a·BU_original + b`) at `argmin(S_original)` is negative; when the flip
fires, sample `i` becomes `sign(a·BU_original[i]+b)·S[i]`, otherwise `S` is
left unchanged. -/
theorem C6_sign_flip_amended (a b : ℚ) (S_original BU_original S : List ℚ)
    (hb : BU_original.length = S.length) (i : ℕ) (hi : i < S.length) :
    ((preprocessSignFlip a b S_original BU_original S).1.getD i 0
        = a * BU_original.getD i 0 + b)
    ∧ ((0 ≤ listMin S_original ∧ BU_original.getD (argminQ S_original) 0 < 0) →
        (preprocessSignFlip a b S_original BU_original S).2.getD i 0
          = npSign (a * BU_original.getD i 0 + b) * S.getD i 0)
    ∧ (¬(0 ≤ listMin S_original ∧ BU_original.getD (argminQ S_original) 0 < 0) →
        (preprocessSignFlip a b S_original BU_original S).2 = S) := by
  have hib : i < BU_original.length := by omega
  have hBU : (preprocessSignFlip a b S_original BU_original S).1
      = BU_original.map (fun x => a * x + b) := rfl
  refine ⟨?_, ?_, ?_⟩
  · rw [hBU, getD_map_of_lt _ _ hib 0 0]
  · intro hcond
    have h2 : (preprocessSignFlip a b S_original BU_original S).2
        = ((BU_original.map (fun x => a * x + b)).zip S).map
            (fun p => npSign p.1 * p.2) := by
      show (if 0 ≤ listMin S_original
          ∧ BU_original.getD (argminQ S_original) 0 < 0 then
          ((BU_original.map (fun x => a * x + b)).zip S).map
            (fun p => npSign p.1 * p.2)
        else S) = _
      rw [if_pos hcond]
    rw [h2]
    have hiz : i < ((BU_original.map (fun x => a * x + b)).zip S).length := by
      rw [List.length_zip, List.length_map]
      omega
    rw [getD_map_of_lt _ _ hiz 0 (0, 0),
      getD_zip (by rw [List.length_map]; omega) hi 0 0,
      getD_map_of_lt _ _ hib 0 0]
  · intro hcond
    show (if 0 ≤ listMin S_original
        ∧ BU_original.getD (argminQ S_original) 0 < 0 then
        ((BU_original.map (fun x => a * x + b)).zip S).map
          (fun p => npSign p.1 * p.2)
      else S) = S
    rw [if_neg hcond]

open StormPhase2 in
/-- Witness for C6: `(a, b) = (1, 0)`, `S_original = S = [1]`,
`BU_original = [-2]` — the flip fires and sample 0 becomes `sign(-2)·1 = -1`. -/
theorem C6_sign_flip_witness :
    ([(-2 : ℚ)] : List ℚ).length = ([(1 : ℚ)] : List ℚ).length
    ∧ 0 < ([(1 : ℚ)] : List ℚ).length
    ∧ (0 ≤ listMin [1] ∧ ([(-2 : ℚ)] : List ℚ).getD (argminQ [1]) 0 < 0)
    ∧ (preprocessSignFlip 1 0 [1] [-2] [1]).2.getD 0 0
      = npSign (1 * ([(-2 : ℚ)] : List ℚ).getD 0 0 + 0) * ([(1 : ℚ)] : List ℚ).getD 0 0 := by
  refine ⟨rfl, by decide, ⟨?_, ?_⟩, ?_⟩
  · norm_num [listMin]
  · norm_num [argminQ, argminAux]
  · refine (C6_sign_flip_amended 1 0 [1] [-2] [1] rfl 0 (by decide)).2.1 ⟨?_, ?_⟩
    · norm_num [listMin]
    · norm_num [argminQ, argminAux]

open StormPhase2 in
/-- C8 counterexample: (1) when every row is flagged missing the candidate
selection is empty and the code fails with NumPy's zero-size-reduction error
from `np.percentile` — no `InsufficientDataError` exists in the code; (2) when
the rows merely all fall outside the strict percentile band (here a single
row, whose value equals both percentiles) the candidate set is empty yet
nothing is raised at all; (3) the optimizer's result is used unconditionally —
a non-converged run returning `(3, 7)` yields `(3, 7)`, not the fallback
`(1, 0)`. -/
theorem C8_counterexample :
    linFitPrep [1] [5] 10 90 = .error .numpyEmptyReduction
    ∧ linFitPrep [0] [5] 10 90 = .ok []
    ∧ match_bottomup_load ⟨(3, 7), false⟩ = (3, 7)
    ∧ ((3 : ℚ), (7 : ℚ)) ≠ ((1 : ℚ), (0 : ℚ)) := by
  refine ⟨?_, ?_, rfl, by norm_num⟩
  · norm_num [linFitPrep]
  · norm_num [linFitPrep, percentile, sortAsc, insertAsc]

open StormPhase2 in
/-- C8 (amended): when every row is excluded by the `missing == 0` filter,
the linear-fit preparation fails with NumPy's empty-reduction error (there is
no `InsufficientDataError` in the code); and `match_bottomup_load` returns
the optimizer's parameters unconditionally — non-convergence triggers no
fallback to `(1, 0)`. -/
theorem C8_linear_fit_amended :
    (∀ (missing diff : List ℚ) (lowQ upQ : ℚ),
      (∀ p ∈ missing.zip diff, p.1 ≠ 0) →
      linFitPrep missing diff lowQ upQ = .error .numpyEmptyReduction)
    ∧ ∀ ab : OptimizeResult, match_bottomup_load ab = ab.x := by
  constructor
  · intro missing diff lowQ upQ hall
    have hfil : (missing.zip diff).filter (fun p => p.1 = 0) = [] := by
      rw [List.filter_eq_nil_iff]
      intro p hp
      simpa using hall p hp
    have harr : ((missing.zip diff).filter (fun p => p.1 = 0)).map (fun p => p.2)
        = ([] : List ℚ) := by
      rw [hfil]
      rfl
    simp only [linFitPrep]
    rw [harr]
    rfl
  · intro ab
    rfl

open StormPhase2 in
/-- Witness for C8: every row of the single-row frame `missing = [2]`,
`diff = [5]` is flagged missing. -/
theorem C8_linear_fit_witness :
    (∀ p ∈ ([(2 : ℚ)] : List ℚ).zip ([(5 : ℚ)] : List ℚ), p.1 ≠ 0)
    ∧ linFitPrep [2] [5] 10 90 = .error .numpyEmptyReduction := by
  have h : ∀ p ∈ ([(2 : ℚ)] : List ℚ).zip ([(5 : ℚ)] : List ℚ), p.1 ≠ 0 := by
    intro p hp
    rcases List.mem_singleton.mp hp with rfl
    norm_num
  exact ⟨h, C8_linear_fit_amended.1 [2] [5] 10 90 h⟩
